import Mathlib

set_option autoImplicit false

/-!
Shallow embedding of the structvar-bench batch mutation pipeline:
`src/parallel/split_workload.py` (workload partitioner) and
`src/parallel/worker_foldx.py` (resumable FoldX worker: completed-work
ledger, repair cache, mutation evaluator, checkpoint writer).

Python strings are modelled as Lean `String`s manipulated through their
character lists, pandas DataFrames as `List MutRow`, the Python `set` of
completed keys as `Finset String`, file bytes as `List UInt8`, and the
external FoldX engine as an oracle record `Engine` of deterministic
success/output functions.  External observable actions (BuildModel
invocations, conversions, repairs, file moves, warnings) are collected in
a `RunLog` so that "X is attempted / never re-run" claims are statable.
-/

/-! ## Python string primitives -/

/-- Lexicographic comparison of character lists by code point; models
Python `str` comparison (and the key ordering used by `pandas.groupby` /
`sort_values` on string columns). -/
def strLeChars : List Char → List Char → Bool
  | [], _ => true
  | _ :: _, [] => false
  | a :: as, b :: bs => if a = b then strLeChars as bs else decide (a < b)

/-- String `≤` by code points (Python semantics). -/
def strLe (a b : String) : Bool := strLeChars a.toList b.toList

/-- Does `l` start with `needle`? Helper for substring search. -/
def startsWithL : List Char → List Char → Bool
  | _, [] => true
  | [], _ :: _ => false
  | a :: as, b :: bs => a = b && startsWithL as bs

/-- Is `needle` a contiguous substring of `l`?  Models Python's
`needle in s` test on strings. -/
def containsL : List Char → List Char → Bool
  | [], needle => startsWithL [] needle
  | a :: as, needle => startsWithL (a :: as) needle || containsL as needle

/-- Python `needle in hay` on strings. -/
def pyContains (hay needle : String) : Bool := containsL hay.toList needle.toList

/-- Split on a separator character, keeping empty fields; models Python
`s.split(sep)` for a single-character separator. -/
def splitOnChar (sep : Char) : List Char → List Char → List String
  | [], acc => [String.mk acc.reverse]
  | c :: cs, acc =>
    if c = sep then String.mk acc.reverse :: splitOnChar sep cs []
    else splitOnChar sep cs (c :: acc)

/-- Python `s.split('\t')`. -/
def pySplitTab (s : String) : List String := splitOnChar '\t' s.toList []

/-- Split a file's text into lines, each keeping its trailing newline,
as Python's `file.readlines()` does. -/
def readlinesAux : List Char → List Char → List String
  | [], [] => []
  | [], acc => [String.mk acc.reverse]
  | c :: cs, acc =>
    if c = '\n' then String.mk (c :: acc).reverse :: readlinesAux cs []
    else readlinesAux cs (c :: acc)

/-- Python `f.readlines()` on a file whose full text is `s`. -/
def pyReadlines (s : String) : List String := readlinesAux s.toList []

/-- Whitespace characters stripped by Python `float()` (space, tab,
newline, carriage return, vertical tab, form feed). -/
def isPyWs (c : Char) : Bool :=
  c = ' ' || c = '\t' || c = '\n' || c = '\r' || c = Char.ofNat 11 || c = Char.ofNat 12

/-- Strip leading and trailing whitespace from a character list. -/
def stripChars (cs : List Char) : List Char :=
  ((cs.dropWhile isPyWs).reverse.dropWhile isPyWs).reverse

/-- Numeric value of a digit string, accumulator style. -/
def digitsToNat (acc : Nat) : List Char → Nat
  | [] => acc
  | c :: cs => digitsToNat (acc * 10 + (c.toNat - '0'.toNat)) cs

/-- Strip one optional leading sign, returning the sign as `1` or `-1`
together with the remaining characters. -/
def splitSign : List Char → Int × List Char
  | '+' :: t => (1, t)
  | '-' :: t => (-1, t)
  | t => (1, t)

/-- Parse the optional exponent tail of a float literal: either nothing,
or `e`/`E`, an optional sign, and at least one digit consuming the rest. -/
def parseExpTail : List Char → Option Int
  | [] => some 0
  | c :: cs =>
    if c = 'e' ∨ c = 'E' then
      if (splitSign cs).2.takeWhile Char.isDigit ≠ [] ∧
          (splitSign cs).2.dropWhile Char.isDigit = [] then
        some ((splitSign cs).1 *
          (digitsToNat 0 ((splitSign cs).2.takeWhile Char.isDigit) : Int))
      else none
    else none

/-- Split an optional fractional part: on `.` followed by anything, the
digits after the point and the remainder; otherwise no fraction digits. -/
def fracPart : List Char → List Char × List Char
  | '.' :: t => (t.takeWhile Char.isDigit, t.dropWhile Char.isDigit)
  | rest => ([], rest)

/-- Exact rational value of a decimal literal with integer digits
`intDs`, fraction digits `fracDs` and decimal exponent `e`. -/
def floatVal (intDs fracDs : List Char) (e : Int) : ℚ :=
  if 0 ≤ e - (fracDs.length : Int) then
    mkRat ((digitsToNat 0 (intDs ++ fracDs) : Int) *
      (10 : Int) ^ (e - (fracDs.length : Int)).toNat) 1
  else
    mkRat (digitsToNat 0 (intDs ++ fracDs) : Int)
      ((10 : Nat) ^ (-(e - (fracDs.length : Int))).toNat)

/-- Parse an unsigned decimal float literal: digits, an optional point
with further digits (at least one digit overall), then an optional
exponent.  Returns its exact rational value. -/
def parseUnsignedFloat (cs : List Char) : Option ℚ :=
  if cs.takeWhile Char.isDigit = [] ∧ (fracPart (cs.dropWhile Char.isDigit)).1 = [] then
    none
  else
    match parseExpTail (fracPart (cs.dropWhile Char.isDigit)).2 with
    | none => none
    | some e =>
      some (floatVal (cs.takeWhile Char.isDigit)
        (fracPart (cs.dropWhile Char.isDigit)).1 e)

/-- Model of Python `float(s)` on ordinary decimal literals: surrounding
whitespace is stripped, then an optional sign and a decimal literal with
optional exponent.  (`inf`, `nan` and underscore separators, which never
occur in FoldX energy columns, are not modelled and yield `none`.) -/
def pyFloat (s : String) : Option ℚ :=
  (parseUnsignedFloat (splitSign (stripChars s.toList)).2).map
    (fun x => if (splitSign (stripChars s.toList)).1 < 0 then -x else x)

/-! ## Amino-acid codes and mutation records -/

/-- Capitalize a residue code the way Biopython's `seq1` normalizes its
argument: first letter upper case, remaining letters lower case. -/
def capitalizeAA (s : String) : String :=
  match s.toList with
  | [] => ""
  | c :: cs => String.mk (c.toUpper :: cs.map Char.toLower)

/-- Model of `Bio.SeqUtils.seq1` restricted to one residue code
(`get_1letter_code` in the source): 3-letter to 1-letter translation,
with `X` for anything unknown. -/
def get_1letter_code (aa3 : String) : String :=
  match capitalizeAA aa3 with
  | "Ala" => "A" | "Arg" => "R" | "Asn" => "N" | "Asp" => "D"
  | "Cys" => "C" | "Gln" => "Q" | "Glu" => "E" | "Gly" => "G"
  | "His" => "H" | "Ile" => "I" | "Leu" => "L" | "Lys" => "K"
  | "Met" => "M" | "Phe" => "F" | "Pro" => "P" | "Ser" => "S"
  | "Thr" => "T" | "Trp" => "W" | "Tyr" => "Y" | "Val" => "V"
  | "Asx" => "B" | "Glx" => "Z" | "Xaa" => "X" | "Xle" => "J"
  | "Sec" => "U" | "Pyl" => "O"
  | _ => "X"

/-- One row of a worker's input chunk CSV: the columns the worker reads
(`UniProtID`, `StructureFile`, `WildType`, `ResidueIndex`, `MutantAA`).
`ResidueIndex` is stored as the integer the code obtains from
`int(row['ResidueIndex'])`. -/
structure MutRow where
  uniprot : String
  structureFile : String
  wildType : String
  resIdx : Nat
  mutantAA : String
deriving DecidableEq

/-- Identity key of a mutation, exactly as built at worker_foldx.py:108,
127 and 180: `f"{UniProtID}_{WildType}{int(ResidueIndex)}{MutantAA}"`. -/
def mutKey (r : MutRow) : String :=
  r.uniprot ++ "_" ++ r.wildType ++ toString r.resIdx ++ r.mutantAA

/-- FoldX mutation token (worker_foldx.py:190):
`f"{wt_1}A{res_num}{mut_1}"` - chain is always `A`. -/
def mutCode (r : MutRow) : String :=
  get_1letter_code r.wildType ++ "A" ++ toString r.resIdx ++ get_1letter_code r.mutantAA

/-- Name of the mutant structure produced by FoldX before relocation
(worker_foldx.py:232): `{uniprot}_Repair_1.pdb`. -/
def generatedPdbName (uniprot : String) : String := uniprot ++ "_Repair_1.pdb"

/-- Stable destination name for the relocated mutant structure
(worker_foldx.py:233): `f"{uniprot_id}_{wt_1}{res_num}{mut_1}.pdb"`. -/
def finalPdbName (r : MutRow) : String :=
  r.uniprot ++ "_" ++ get_1letter_code r.wildType ++ toString r.resIdx ++
    get_1letter_code r.mutantAA ++ ".pdb"

/-- One result row of the output CSV `cohort_with_ddg_N.csv`: the input
row's columns plus `ddG` (nullable) and `MutantStructureFile`
(worker_foldx.py:244-246). -/
structure OutRow where
  mrow : MutRow
  ddG : Option ℚ
  mutantStructureFile : String
deriving DecidableEq

/-- Identity key reconstructed from a persisted output row
(worker_foldx.py:108): built from the same four columns. -/
def outKey (r : OutRow) : String := mutKey r.mrow

/-! ## fxout energy parsing (worker_foldx.py:210-228) -/

/-- Parse the ddG value from the `Dif_*.fxout` file, exactly as
worker_foldx.py:215-228 does: `none` when the file is absent; otherwise
take `readlines()[-1]` (if any line exists), split it on tabs, and when
there are more than 2 fields and field 1 does not contain `"Total"`,
try `float(cols[1])`, keeping `None` on a `ValueError`. -/
def extractDdg (file : Option String) : Option ℚ :=
  match file with
  | none => none
  | some content =>
    match (pyReadlines content).getLast? with
    | none => none
    | some lastLine =>
      let cols := pySplitTab lastLine
      if 2 < cols.length then
        if pyContains (cols.getD 1 "") "Total" then none
        else pyFloat (cols.getD 1 "")
      else none

/-- Modelled from the spec's words for comparison: the same parse but on
the *last non-empty line* of the file ("last non-empty line, field count
>= 3, second field numeric").  Used only to compare against `extractDdg`,
which is translated from the source. -/
def specExtractDdg (file : Option String) : Option ℚ :=
  match file with
  | none => none
  | some content =>
    match ((pyReadlines content).filter
        (fun l => ¬ stripChars l.toList = [])).getLast? with
    | none => none
    | some lastLine =>
      let cols := pySplitTab lastLine
      if 2 < cols.length then pyFloat (cols.getD 1 "") else none

/-! ## Truncation repair (worker_foldx.py:94-103) -/

/-- Startup repair of the output file, at byte level: if the file is
nonempty and its last byte is not `\n` (byte 10), append one `\n`;
otherwise leave the content untouched. -/
def fixTrailingNewline (content : List UInt8) : List UInt8 :=
  if 0 < content.length then
    if content.getLast? ≠ some (10 : UInt8) then content ++ [(10 : UInt8)]
    else content
  else content

/-! ## Workload partitioner (split_workload.py) -/

/-- Number of rows of the table sharing a protein identifier; models
`df['UniProtID'].value_counts()` mapped back onto each row
(split_workload.py:25-27). -/
def mutationCount (df : List MutRow) (u : String) : Nat :=
  (df.filter (fun r => r.uniprot == u)).length

/-- Sort-key comparison of split_workload.py:30: `MutationCount`
descending, then `UniProtID` ascending. -/
def workloadLe (df : List MutRow) (a b : MutRow) : Bool :=
  let ca := mutationCount df a.uniprot
  let cb := mutationCount df b.uniprot
  decide (cb < ca) || (ca == cb && strLe a.uniprot b.uniprot)

/-- Insert into a sorted list (structural insertion sort step). -/
def insertSorted {α : Type} (le : α → α → Bool) (x : α) : List α → List α
  | [] => [x]
  | y :: ys => if le x y then x :: y :: ys else y :: insertSorted le x ys

/-- Sort by a boolean comparison.  Models `df.sort_values(...)`; pandas'
default quicksort leaves the order of tied rows unspecified, and this
insertion sort is one deterministic refinement of it. -/
def sortByLe {α : Type} (le : α → α → Bool) : List α → List α
  | [] => []
  | x :: xs => insertSorted le x (sortByLe le xs)

/-- The sorted workload of split_workload.py:30-31. -/
def sortWorkload (df : List MutRow) : List MutRow := sortByLe (workloadLe df) df

/-- Chunk sizes of `np.array_split(l, n)` per the numpy contract: `l % n`
sub-arrays of size `l // n + 1`, the remaining `n - l % n` of size
`l // n`. -/
def splitSizes (len n : Nat) : List Nat :=
  List.replicate (len % n) (len / n + 1) ++ List.replicate (n - len % n) (len / n)

/-- Cut a list into consecutive slices of the given sizes. -/
def splitBySizes {α : Type} : List Nat → List α → List (List α)
  | [], _ => []
  | s :: ss, l => l.take s :: splitBySizes ss (l.drop s)

/-- Model of `np.array_split(df_sorted, n)` (split_workload.py:36). -/
def arraySplit {α : Type} (l : List α) (n : Nat) : List (List α) :=
  splitBySizes (splitSizes l.length n) l

/-- Model of `split_csv` (split_workload.py:20-44): sort the table by
mutation count descending / protein ascending, then `np.array_split`
into `n` chunks, each written to its own file.  `numpy` raises only for
`n = 0` ("number sections must be larger than 0"); every other input
produces `n` chunk files. -/
def split_csv (df : List MutRow) (n : Nat) : Except String (List (List MutRow)) :=
  if n = 0 then Except.error "number sections must be larger than 0."
  else Except.ok (arraySplit (sortWorkload df) n)

/-! ## The FoldX engine as a deterministic oracle -/

/-- Deterministic oracle for the external engine and filesystem effects
the worker observes.  `convertOk` is indexed by the source structure
file passed to `convert_cif_to_pdb`; `repairOk` by the protein whose
`{uniprot}.pdb` is repaired; `buildOk` decides whether the BuildModel
subprocess exits zero for a mutation; `fxoutAfter` is the text of
`Dif_{uniprot}_Repair.fxout` right after a successful build (`none` if
the file is absent); `mutantGenerated` tells whether
`{uniprot}_Repair_1.pdb` exists after a successful build. -/
structure Engine where
  convertOk : String → Bool
  repairOk : String → Bool
  buildOk : MutRow → Bool
  fxoutAfter : MutRow → Option String
  mutantGenerated : MutRow → Bool

/-- Worker state that survives across protein groups: the in-memory
completed-key set, the rows of the output CSV, and the set of proteins
whose repaired artifact `{uniprot}_Repair.pdb` exists in the workspace.
(The cleanup block worker_foldx.py:256-277 removes only fxout variants,
`individual_list.txt` and the `WT_` artifact - never the repaired
structure - so the artifact set only grows.) -/
structure WState where
  completed : Finset String
  rows : List OutRow
  repaired : Finset String
deriving DecidableEq

/-- Log of external observable actions of a run: BuildModel invocations
(`attempts`), CIF-to-PDB conversions and RepairPDB invocations (by
protein), missing-mutant-PDB warnings (by mutation code), and
`shutil.move` relocations (source, destination). -/
structure RunLog where
  attempts : List MutRow
  converts : List String
  repairs : List String
  warnings : List String
  moves : List (String × String)
deriving DecidableEq

/-- The empty log. -/
def RunLog.nil : RunLog := ⟨[], [], [], [], []⟩

/-- Concatenation of logs of consecutive actions. -/
def RunLog.cat (a b : RunLog) : RunLog :=
  ⟨a.attempts ++ b.attempts, a.converts ++ b.converts, a.repairs ++ b.repairs,
   a.warnings ++ b.warnings, a.moves ++ b.moves⟩

/-- Relocations performed by the move step (worker_foldx.py:238-239):
`shutil.move` only when the generated mutant structure exists. -/
def mvMoves (eng : Engine) (uniprot : String) (row : MutRow) : List (String × String) :=
  if eng.mutantGenerated row then [(generatedPdbName uniprot, finalPdbName row)] else []

/-- Warning log of the relocation step: when the generated mutant
structure is absent, worker_foldx.py:241 only prints a warning. -/
def mvWarn (eng : Engine) (row : MutRow) : List String :=
  if eng.mutantGenerated row then [] else [mutCode row]

/-- Body of the per-mutation loop (worker_foldx.py:177-280) for one row
of a Ready group, acting on (completed keys, results_batch, session
count).  Skips rows whose key is already completed; otherwise invokes
BuildModel (logged as an attempt).  On exit zero it parses the fxout,
moves the mutant structure when present (warning otherwise), appends
the result entry and marks the key completed; on non-zero exit
(`CalledProcessError`) it changes nothing. -/
def processMutation (eng : Engine) (uniprot : String) (row : MutRow)
    (st : Finset String × List OutRow × Nat) :
    (Finset String × List OutRow × Nat) × RunLog :=
  if mutKey row ∈ st.1 then (st, RunLog.nil)
  else if eng.buildOk row then
    ((insert (mutKey row) st.1,
      st.2.1 ++ [⟨row, extractDdg (eng.fxoutAfter row), finalPdbName row⟩], st.2.2 + 1),
     ⟨[row], [], [], mvWarn eng row, mvMoves eng uniprot row⟩)
  else (st, ⟨[row], [], [], [], []⟩)

/-- The per-mutation loop over a group's rows, threading state and
concatenating logs. -/
def processMutations (eng : Engine) (uniprot : String) :
    List MutRow → (Finset String × List OutRow × Nat) →
    (Finset String × List OutRow × Nat) × RunLog
  | [], st => (st, RunLog.nil)
  | r :: rs, st =>
    let s1 := processMutation eng uniprot r st
    let s2 := processMutations eng uniprot rs s1.1
    (s2.1, s1.2.cat s2.2)

/-- Source structure filename used for conversion: the first row's
`StructureFile` column (worker_foldx.py:136). -/
def structFileOf (g : String × List MutRow) : String :=
  (g.2.head?.map MutRow.structureFile).getD ""

/-- The Ready path of the per-protein loop: run the per-mutation loop on
the group's rows with an empty `results_batch`, then checkpoint by
appending the batch to the output rows (worker_foldx.py:172-289).
`rep` is the repaired-artifact set after the prep phase and `lg` the prep
phase's log. -/
def runReadyGroup (eng : Engine) (st : WState × Nat) (g : String × List MutRow)
    (rep : Finset String) (lg : RunLog) : (WState × Nat) × Bool × RunLog :=
  ((⟨(processMutations eng g.1 g.2 (st.1.completed, [], st.2)).1.1,
     st.1.rows ++ (processMutations eng g.1 g.2 (st.1.completed, [], st.2)).1.2.1, rep⟩,
    (processMutations eng g.1 g.2 (st.1.completed, [], st.2)).1.2.2), true,
   lg.cat (processMutations eng g.1 g.2 (st.1.completed, [], st.2)).2)

/-- Body of the per-protein loop (worker_foldx.py:125-289) for one
group.  Returns the new state and session count, whether the loop body
ran to its end (`false` when a `continue` skipped the group: all keys
completed, conversion failure, or RepairPDB failure), and the log.
On the repair path it checks the cached `{uniprot}_Repair.pdb` first
(worker_foldx.py:144) and otherwise converts and repairs; a Ready group
then runs its mutations via `runReadyGroup`. -/
def processGroup (eng : Engine) (st : WState × Nat) (g : String × List MutRow) :
    (WState × Nat) × Bool × RunLog :=
  if g.2.all (fun r => decide (mutKey r ∈ st.1.completed)) then (st, false, RunLog.nil)
  else if g.1 ∈ st.1.repaired then
    runReadyGroup eng st g st.1.repaired RunLog.nil
  else if eng.convertOk (structFileOf g) then
    if eng.repairOk g.1 then
      runReadyGroup eng st g (insert g.1 st.1.repaired) ⟨[], [g.1], [g.1], [], []⟩
    else (st, false, ⟨[], [g.1], [g.1], [], []⟩)
  else (st, false, ⟨[], [g.1], [], [], []⟩)

/-- The loop over protein groups with the session budget check of
worker_foldx.py:291-293: after a group whose body ran to the end, stop
when the batch limit is truthy (nonzero) and the session count reached
it. -/
def runGroups (eng : Engine) (limit : Nat) :
    List (String × List MutRow) → WState × Nat → (WState × Nat) × RunLog
  | [], st => (st, RunLog.nil)
  | g :: gs, st =>
    let s := processGroup eng st g
    if s.2.1 && !(limit == 0) && decide (limit ≤ s.1.2) then (s.1, s.2.2)
    else
      let s' := runGroups eng limit gs s.1
      (s'.1, s.2.2.cat s'.2)

/-- Completed-key set rebuilt from the existing output rows
(worker_foldx.py:107-109). -/
def loadCompleted (rows : List OutRow) : Finset String :=
  (rows.map outKey).toFinset

/-- Ledger-loading prelude of worker_foldx.py:86-113.  The argument is
`none` when no prior output file exists, `some none` when it exists but
`pd.read_csv` raises even after the newline fix, and `some (some rows)`
when it parses.  Returns the completed-key set and the `write_header`
flag.  On a parse failure the `except` clause prints
"Couldn't read CSV (...). Starting fresh." and the function proceeds
with an empty set and `write_header = True`; there is no abort path. -/
def loadLedger : Option (Option (List OutRow)) → Finset String × Bool
  | none => (∅, true)
  | some none => (∅, true)
  | some (some rows) => (loadCompleted rows, false)

/-- Deduplicated protein identifiers of the table in sorted order, then
each protein's rows in table order; models `df.groupby('UniProtID')`
(worker_foldx.py:116), which sorts group keys ascending. -/
def groupByProtein (df : List MutRow) : List (String × List MutRow) :=
  (sortByLe strLe (df.map MutRow.uniprot).dedup).map
    (fun u => (u, df.filter (fun r => r.uniprot == u)))

/-- Model of `run_foldx_process` (worker_foldx.py:85-293) for a readable
(or absent) prior output file: rebuild the ledger from the prior rows,
group the chunk by protein, and run the group loop.  `priorRows` is the
parsed content of the existing output file (`[]` when the file does not
exist), `repaired0` the set of proteins whose repair artifact is already
in the workspace, and `limit` the batch budget (0 when falsy). -/
def run_foldx_process (eng : Engine) (df : List MutRow) (priorRows : List OutRow)
    (repaired0 : Finset String) (limit : Nat) : (WState × Nat) × RunLog :=
  runGroups eng limit (groupByProtein df)
    (⟨loadCompleted priorRows, priorRows, repaired0⟩, 0)

/-! ## Helper lemmas: sorting and array_split -/

lemma insertSorted_perm {α : Type} (le : α → α → Bool) (x : α) (l : List α) :
    (insertSorted le x l).Perm (x :: l) := by
  induction l with
  | nil => simp [insertSorted]
  | cons y ys ih =>
    simp only [insertSorted]
    by_cases h : le x y
    · simp [h]
    · simp only [h]
      exact ((ih.cons y).trans (List.Perm.swap x y ys)).symm.symm

lemma sortByLe_perm {α : Type} (le : α → α → Bool) (l : List α) :
    (sortByLe le l).Perm l := by
  induction l with
  | nil => simp [sortByLe]
  | cons x xs ih =>
    exact (insertSorted_perm le x (sortByLe le xs)).trans (ih.cons x)

lemma splitBySizes_flatten {α : Type} (ss : List Nat) (l : List α) :
    (splitBySizes ss l).flatten = l.take ss.sum := by
  induction ss generalizing l with
  | nil => simp [splitBySizes]
  | cons s ss ih =>
    simp only [splitBySizes, List.flatten_cons, ih, List.sum_cons]
    exact (List.take_add l s ss.sum).symm

lemma splitBySizes_length {α : Type} (ss : List Nat) (l : List α) :
    (splitBySizes ss l).length = ss.length := by
  induction ss generalizing l with
  | nil => simp [splitBySizes]
  | cons s ss ih => simp [splitBySizes, ih]

lemma splitSizes_sum (len n : Nat) (hn : 1 ≤ n) : (splitSizes len n).sum = len := by
  have hmod : len % n < n := Nat.mod_lt _ hn
  have hdiv := Nat.div_add_mod len n
  simp only [splitSizes, List.sum_append, List.sum_replicate, smul_eq_mul]
  have h1 : len % n * (len / n + 1) = len % n * (len / n) + len % n := by ring
  have h2 : (n - len % n) * (len / n) = n * (len / n) - len % n * (len / n) :=
    Nat.sub_mul n (len % n) (len / n)
  have h3 : len % n * (len / n) ≤ n * (len / n) :=
    Nat.mul_le_mul_right _ (le_of_lt hmod)
  omega

lemma splitSizes_length (len n : Nat) (hn : 1 ≤ n) : (splitSizes len n).length = n := by
  have hmod : len % n < n := Nat.mod_lt _ hn
  simp only [splitSizes, List.length_append, List.length_replicate]
  omega

lemma mem_splitSizes (len n x : Nat) (hx : x ∈ splitSizes len n) :
    x = len / n ∨ x = len / n + 1 := by
  simp only [splitSizes, List.mem_append, List.mem_replicate] at hx
  omega

lemma splitBySizes_lengths {α : Type} (ss : List Nat) (l : List α)
    (h : ss.sum ≤ l.length) : (splitBySizes ss l).map List.length = ss := by
  induction ss generalizing l with
  | nil => simp [splitBySizes]
  | cons s ss ih =>
    simp only [List.sum_cons] at h
    have hs : s ≤ l.length := le_trans (Nat.le_add_right s ss.sum) h
    simp only [splitBySizes, List.map_cons, List.length_take]
    rw [ih]
    · simp [Nat.min_eq_left hs]
    · simpa [List.length_drop] using Nat.le_sub_of_add_le (by omega)

lemma arraySplit_flatten {α : Type} (l : List α) (n : Nat) (hn : 1 ≤ n) :
    (arraySplit l n).flatten = l := by
  rw [arraySplit, splitBySizes_flatten, splitSizes_sum _ _ hn, List.take_of_length_le le_rfl]

lemma arraySplit_length {α : Type} (l : List α) (n : Nat) (hn : 1 ≤ n) :
    (arraySplit l n).length = n := by
  rw [arraySplit, splitBySizes_length, splitSizes_length _ _ hn]

lemma arraySplit_lengths {α : Type} (l : List α) (n : Nat) (hn : 1 ≤ n) :
    (arraySplit l n).map List.length = splitSizes l.length n := by
  exact splitBySizes_lengths _ _ (le_of_eq (splitSizes_sum _ _ hn))

lemma sortWorkload_perm (df : List MutRow) : (sortWorkload df).Perm df :=
  sortByLe_perm _ df

/-! ## Claim theorems: partitioner -/

/-- C3: for every input table and every chunk count N >= 1, including N
greater than the number of rows or of distinct proteins, `split_csv`
produces exactly N chunks whose concatenation is a permutation of the
input rows: each row is placed in exactly one chunk, none duplicated,
none dropped. -/
theorem split_csv_partition_complete (df : List MutRow) (n : Nat) (hn : 1 ≤ n) :
    ∃ chunks, split_csv df n = Except.ok chunks ∧ chunks.length = n ∧
      chunks.flatten.Perm df := by
  refine ⟨arraySplit (sortWorkload df) n, ?_, ?_, ?_⟩
  · rw [split_csv, if_neg (by omega)]
  · exact arraySplit_length _ _ hn
  · rw [arraySplit_flatten _ _ hn]
    exact sortWorkload_perm df

/-- Witness for C3 at a concrete table and N = 2 > 1 = distinct proteins. -/
theorem split_csv_partition_complete_witness :
    ∃ chunks, split_csv [⟨"P1", "f", "GLU", 10, "ASP"⟩, ⟨"P1", "f", "LYS", 55, "ARG"⟩] 2
        = Except.ok chunks ∧ chunks.length = 2 ∧
      chunks.flatten.Perm [⟨"P1", "f", "GLU", 10, "ASP"⟩, ⟨"P1", "f", "LYS", 55, "ARG"⟩] :=
  split_csv_partition_complete _ 2 (by decide)

lemma splitBySizes_of_nil {α : Type} (ss : List Nat) :
    ∀ c ∈ splitBySizes ss ([] : List α), c = [] := by
  induction ss with
  | nil => intro c hc; simp [splitBySizes] at hc
  | cons s ss ih =>
    intro c hc
    simp only [splitBySizes, List.take_nil, List.drop_nil, List.mem_cons] at hc
    rcases hc with h | h
    · exact h
    · exact ih c h

/-- Example rows used in concrete instantiations: two mutations of the
same protein. -/
def exRow1 : MutRow := ⟨"P1", "f", "GLU", 10, "ASP"⟩

/-- Second example row, same protein as `exRow1`. -/
def exRow2 : MutRow := ⟨"P1", "f", "LYS", 55, "ARG"⟩

/-- C8 counterexample: on an empty input table (and N = 6 exceeding the
zero rows of distinct work), `split_csv` does not fail: it returns six
(empty) chunks, each of which the script writes to its own chunk file. -/
theorem split_csv_empty_input_succeeds :
    split_csv [] 6 = Except.ok [[], [], [], [], [], []] := by rfl

/-- C8 amended: for every N >= 1 the partitioner never fails: it always
produces N chunk files, which are all empty when the input is empty, and
at least one of which is empty whenever N exceeds the number of input
rows.  (Only N = 0 raises, inside `np.array_split`.) -/
theorem split_csv_degrades_silently (df : List MutRow) (n : Nat) (hn : 1 ≤ n) :
    ∃ chunks, split_csv df n = Except.ok chunks ∧ chunks.length = n ∧
      (df = [] → ∀ c ∈ chunks, c = []) ∧ (df.length < n → [] ∈ chunks) := by
  refine ⟨arraySplit (sortWorkload df) n, by rw [split_csv, if_neg (by omega)], 
    arraySplit_length _ _ hn, ?_, ?_⟩
  · rintro rfl
    exact splitBySizes_of_nil _
  · intro hlt
    have hlen : (sortWorkload df).length = df.length := (sortWorkload_perm df).length_eq
    have hlens := arraySplit_lengths (sortWorkload df) n hn
    have h0 : (0 : Nat) ∈ splitSizes (sortWorkload df).length n := by
      rw [hlen]
      have hq : df.length / n = 0 := Nat.div_eq_of_lt hlt
      rw [splitSizes, hq]
      refine List.mem_append.mpr (Or.inr (List.mem_replicate.mpr ⟨?_, rfl⟩))
      have hr : df.length % n = df.length := Nat.mod_eq_of_lt hlt
      omega
    rw [← hlens] at h0
    rcases List.mem_map.mp h0 with ⟨c, hc, hcl⟩
    rwa [List.eq_nil_of_length_eq_zero hcl] at hc

/-- Witness for C8's amended theorem at a nonempty table and N = 6 > 2
rows. -/
theorem split_csv_degrades_silently_witness :
    ∃ chunks, split_csv [exRow1, exRow2] 6 = Except.ok chunks ∧ chunks.length = 6 ∧
      ([exRow1, exRow2] = [] → ∀ c ∈ chunks, c = []) ∧
      (([exRow1, exRow2] : List MutRow).length < 6 → [] ∈ chunks) :=
  split_csv_degrades_silently [exRow1, exRow2] 6 (by decide)

/-- C10: the partitioner splits purely by row position in the sorted
table, never aligning chunk boundaries to protein groups.  Concretely,
two rows of the same protein `P1` land in two different chunks for N = 2;
in general every chunk layout is `np.array_split`'s: the chunks
concatenate (in order) to exactly the sorted table, their sizes are the
pure function `splitSizes` of the row count alone, and any two chunk
sizes differ by at most one row. -/
theorem split_csv_boundaries_ignore_proteins :
    (split_csv [exRow1, exRow2] 2 = Except.ok [[exRow1], [exRow2]] ∧
      exRow1.uniprot = exRow2.uniprot) ∧
    (∀ (df : List MutRow) (n : Nat), 1 ≤ n →
      ∃ chunks, split_csv df n = Except.ok chunks ∧
        chunks.flatten = sortWorkload df ∧
        chunks.map List.length = splitSizes df.length n ∧
        ∀ c1 ∈ chunks, ∀ c2 ∈ chunks, c1.length ≤ c2.length + 1) := by
  constructor
  · exact ⟨by rfl, by rfl⟩
  · intro df n hn
    refine ⟨arraySplit (sortWorkload df) n, by rw [split_csv, if_neg (by omega)], 
      arraySplit_flatten _ _ hn, ?_, ?_⟩
    · rw [arraySplit_lengths _ _ hn, (sortWorkload_perm df).length_eq]
    · intro c1 hc1 c2 hc2
      have hlens := arraySplit_lengths (sortWorkload df) n hn
      have h1 : c1.length ∈ splitSizes (sortWorkload df).length n := by
        rw [← hlens]; exact List.mem_map.mpr ⟨c1, hc1, rfl⟩
      have h2 : c2.length ∈ splitSizes (sortWorkload df).length n := by
        rw [← hlens]; exact List.mem_map.mpr ⟨c2, hc2, rfl⟩
      rcases mem_splitSizes _ _ _ h1 with h | h <;>
        rcases mem_splitSizes _ _ _ h2 with h' | h' <;> omega

/-- Witness for C10's universal part at the concrete table and N = 2. -/
theorem split_csv_boundaries_ignore_proteins_witness :
    ∃ chunks, split_csv [exRow1, exRow2] 2 = Except.ok chunks ∧
      chunks.flatten = sortWorkload [exRow1, exRow2] ∧
      chunks.map List.length = splitSizes ([exRow1, exRow2] : List MutRow).length 2 ∧
      ∀ c1 ∈ chunks, ∀ c2 ∈ chunks, c1.length ≤ c2.length + 1 :=
  split_csv_boundaries_ignore_proteins.2 [exRow1, exRow2] 2 (by decide)

/-! ## Claim theorems: truncation repair and unreadable ledger -/

/-- C4: an existing output file whose last byte is not a line terminator
is repaired by appending exactly one `\n`; every previously written byte
is unchanged (the original content is literally a prefix of the result),
and a file already ending in `\n` is untouched. -/
theorem truncation_repair_appends_newline (content : List UInt8)
    (hne : content ≠ []) (hlast : content.getLast? ≠ some 10) :
    fixTrailingNewline content = content ++ [10] ∧
    (fixTrailingNewline content).take content.length = content := by
  have hfix : fixTrailingNewline content = content ++ [10] := by
    rw [fixTrailingNewline, if_pos (List.length_pos.mpr hne), if_pos hlast]
  exact ⟨hfix, by rw [hfix, List.take_left]⟩

/-- Witness for C4 at the two-byte file "AB" (no trailing newline). -/
theorem truncation_repair_appends_newline_witness :
    fixTrailingNewline [65, 66] = [65, 66, 10] ∧
    (fixTrailingNewline [65, 66]).take 2 = [65, 66] :=
  truncation_repair_appends_newline [65, 66] (by decide) (by decide)

/-- C2 counterexample: when the prior output file exists but cannot be
parsed even after the newline fix (`some none`), the ledger prelude does
not abort: it returns normally with an *empty* completed-key set (and
`write_header` back on), exactly the "Starting fresh" path of
worker_foldx.py:112-113. -/
theorem unreadable_ledger_starts_fresh :
    loadLedger (some none) = (∅, true) := by rfl

/-- C2 amended: on an unreadable output file the worker does not fail
fast; the `except` clause logs the error and proceeds with an empty
completed-key set, as if no work had been completed (and a missing file
behaves identically, while a parsed file yields its keys). -/
theorem loadLedger_never_aborts :
    loadLedger none = (∅, true) ∧ loadLedger (some none) = (∅, true) ∧
    ∀ rows, loadLedger (some (some rows)) = (loadCompleted rows, false) :=
  ⟨rfl, rfl, fun _ => rfl⟩

/-! ## Helper lemmas: float parsing and substring search -/

/-- Characters that can appear in a successfully parsed float literal
(after whitespace stripping). -/
def floatAllowed (c : Char) : Bool :=
  c.isDigit || c = '+' || c = '-' || c = '.' || c = 'e' || c = 'E'

lemma splitSign_spec (l : List Char) :
    (splitSign l).2 = l ∨
    ∃ c t, l = c :: t ∧ (c = '+' ∨ c = '-') ∧ (splitSign l).2 = t := by
  rcases l with _ | ⟨c, t⟩
  · exact Or.inl rfl
  · by_cases h1 : c = '+'
    · subst h1; exact Or.inr ⟨'+', t, rfl, Or.inl rfl, rfl⟩
    · by_cases h2 : c = '-'
      · subst h2; exact Or.inr ⟨'-', t, rfl, Or.inr rfl, rfl⟩
      · left
        rw [splitSign.eq_def]
        split
        next heq => rw [List.cons.injEq] at heq; exact absurd heq.1 h1
        next heq => rw [List.cons.injEq] at heq; exact absurd heq.1 h2
        next => rfl

lemma splitSign_mem {c : Char} {l : List Char} (h : c ∈ l) :
    c = '+' ∨ c = '-' ∨ c ∈ (splitSign l).2 := by
  rcases splitSign_spec l with h' | ⟨c0, t, rfl, hs, h'⟩
  · exact Or.inr (Or.inr (by rw [h']; exact h))
  · rw [h']
    rcases List.mem_cons.mp h with rfl | hm
    · rcases hs with rfl | rfl
      · exact Or.inl rfl
      · exact Or.inr (Or.inl rfl)
    · exact Or.inr (Or.inr hm)

lemma fracPart_spec (l : List Char) :
    fracPart l = ([], l) ∨
    ∃ t, l = '.' :: t ∧
      fracPart l = (t.takeWhile Char.isDigit, t.dropWhile Char.isDigit) := by
  rcases l with _ | ⟨c, t⟩
  · exact Or.inl rfl
  · by_cases h : c = '.'
    · subst h; exact Or.inr ⟨t, rfl, rfl⟩
    · left
      rw [fracPart.eq_def]
      split
      next heq => rw [List.cons.injEq] at heq; exact absurd heq.1 h
      next => rfl

lemma startsWithL_head {l : List Char} {c : Char} {cs : List Char}
    (h : startsWithL l (c :: cs) = true) : c ∈ l := by
  rcases l with _ | ⟨a, as⟩
  · simp [startsWithL] at h
  · simp only [startsWithL, Bool.and_eq_true, decide_eq_true_eq] at h
    exact h.1 ▸ List.mem_cons_self a as

lemma containsL_mem {l : List Char} {c : Char} {cs : List Char}
    (h : containsL l (c :: cs) = true) : c ∈ l := by
  induction l with
  | nil => simp [containsL, startsWithL] at h
  | cons a as ih =>
    simp only [containsL, Bool.or_eq_true] at h
    rcases h with h | h
    · exact startsWithL_head h
    · exact List.mem_cons_of_mem _ (ih h)

lemma mem_dropWhile_or {p : Char → Bool} {c : Char} {l : List Char} (h : c ∈ l) :
    p c = true ∨ c ∈ l.dropWhile p := by
  rw [← List.takeWhile_append_dropWhile p l] at h
  rcases List.mem_append.mp h with h | h
  · exact Or.inl (List.mem_takeWhile_imp h)
  · exact Or.inr h

lemma mem_stripChars {c : Char} {l : List Char} (h : c ∈ l) :
    isPyWs c = true ∨ c ∈ stripChars l := by
  rcases mem_dropWhile_or (p := isPyWs) h with hw | h1
  · exact Or.inl hw
  · have h2 : c ∈ (l.dropWhile isPyWs).reverse := List.mem_reverse.mpr h1
    rcases mem_dropWhile_or (p := isPyWs) h2 with hw | h3
    · exact Or.inl hw
    · exact Or.inr (List.mem_reverse.mpr h3)

lemma parseExpTail_chars {l : List Char} {e : Int} (h : parseExpTail l = some e) :
    ∀ c ∈ l, floatAllowed c = true := by
  rcases l with _ | ⟨c0, cs⟩
  · intro c hc; cases hc
  · intro c hc
    simp only [parseExpTail] at h
    by_cases he : c0 = 'e' ∨ c0 = 'E'
    · rw [if_pos he] at h
      by_cases hcond : (splitSign cs).2.takeWhile Char.isDigit ≠ [] ∧
          (splitSign cs).2.dropWhile Char.isDigit = []
      · rcases List.mem_cons.mp hc with rfl | hm
        · rcases he with rfl | rfl
          · decide
          · decide
        · rcases splitSign_mem hm with rfl | rfl | hm2
          · decide
          · decide
          · have hsub : (splitSign cs).2 = (splitSign cs).2.takeWhile Char.isDigit := by
              conv_lhs =>
                rw [← List.takeWhile_append_dropWhile Char.isDigit (splitSign cs).2]
              rw [hcond.2, List.append_nil]
            rw [hsub] at hm2
            have hd := List.mem_takeWhile_imp hm2
            simp [floatAllowed, hd]
      · rw [if_neg hcond] at h; cases h
    · rw [if_neg he] at h; cases h

lemma parseUnsignedFloat_chars {l : List Char} {v : ℚ}
    (h : parseUnsignedFloat l = some v) : ∀ c ∈ l, floatAllowed c = true := by
  intro c hc
  rw [parseUnsignedFloat] at h
  by_cases h0 : l.takeWhile Char.isDigit = [] ∧ (fracPart (l.dropWhile Char.isDigit)).1 = []
  · rw [if_pos h0] at h; cases h
  · rw [if_neg h0] at h
    have hexp : ∃ e, parseExpTail (fracPart (l.dropWhile Char.isDigit)).2 = some e := by
      rcases hcase : parseExpTail (fracPart (l.dropWhile Char.isDigit)).2 with _ | e
      · rw [hcase] at h; cases h
      · exact ⟨e, rfl⟩
    rcases hexp with ⟨e, hexp⟩
    rcases mem_dropWhile_or (p := Char.isDigit) hc with hd | hrest
    · simp [floatAllowed, hd]
    · rcases fracPart_spec (l.dropWhile Char.isDigit) with hfp | ⟨t, ht, hfp⟩
      · rw [hfp] at hexp
        exact parseExpTail_chars hexp c hrest
      · rw [ht] at hrest
        rcases List.mem_cons.mp hrest with rfl | hmt
        · decide
        · rcases mem_dropWhile_or (p := Char.isDigit) hmt with hd | hm2
          · simp [floatAllowed, hd]
          · rw [hfp] at hexp
            exact parseExpTail_chars hexp c hm2

lemma pyFloat_chars {s : String} {v : ℚ} (h : pyFloat s = some v) :
    ∀ c ∈ s.toList, isPyWs c = true ∨ floatAllowed c = true := by
  intro c hc
  rw [pyFloat] at h
  have hu : ∃ x, parseUnsignedFloat (splitSign (stripChars s.toList)).2 = some x := by
    rcases hcase : parseUnsignedFloat (splitSign (stripChars s.toList)).2 with _ | x
    · rw [hcase] at h; cases h
    · exact ⟨x, rfl⟩
  rcases hu with ⟨x, hu⟩
  rcases mem_stripChars hc with hw | hstr
  · exact Or.inl hw
  · rcases splitSign_mem hstr with rfl | rfl | hm
    · exact Or.inr (by decide)
    · exact Or.inr (by decide)
    · exact Or.inr (parseUnsignedFloat_chars hu c hm)

/-- A string that parses as a float cannot contain the substring
`"Total"`: the header test of worker_foldx.py:224 never rejects a
numeric field. -/
lemma pyFloat_no_total {s : String} {v : ℚ} (h : pyFloat s = some v) :
    pyContains s "Total" = false := by
  by_contra hcon
  have hT : 'T' ∈ s.toList := by
    have htrue : containsL s.toList ('T' :: "otal".toList) = true := by
      have : pyContains s "Total" = true := by
        rcases hb : pyContains s "Total" with _ | _
        · exact absurd hb hcon
        · rfl
      exact this
    exact containsL_mem htrue
  rcases pyFloat_chars h 'T' hT with hw | ha
  · simp [isPyWs] at hw
  · simp [floatAllowed, Char.isDigit] at ha

/-! ## Claim theorems: fxout energy parsing -/

/-- C7 counterexample: on an fxout file ending in a blank line, the code
parses the *last line as read by `readlines()`* - here the empty line -
and records a null energy, while the claim's "last non-empty line"
reading (3 fields, numeric second field `1.5`) would record `1.5`. -/
theorem extractDdg_trailing_blank_line :
    extractDdg (some "pdb\t1.5\tb\n\n") = none ∧
    specExtractDdg (some "pdb\t1.5\tb\n\n") = some (mkRat 3 2) :=
  ⟨by decide, by decide⟩

/-- C7 amended: for every mutagenesis invocation that exits zero, the
recorded energy is the value of the second tab-separated field of the
*last line as returned by readlines* (which may be empty) of the result
file, whenever that line has at least 3 fields and a numeric second
field; a missing result file, an empty file, too few fields, or a
non-numeric second field yields a null energy, never an abort. -/
theorem extractDdg_last_line_parse (file : Option String) :
    (file = none → extractDdg file = none) ∧
    (∀ content, file = some content →
      ((pyReadlines content).getLast? = none → extractDdg file = none) ∧
      (∀ lastLine, (pyReadlines content).getLast? = some lastLine →
        ((pySplitTab lastLine).length < 3 → extractDdg file = none) ∧
        (∀ v, 3 ≤ (pySplitTab lastLine).length →
          pyFloat ((pySplitTab lastLine).getD 1 "") = some v →
          extractDdg file = some v) ∧
        (3 ≤ (pySplitTab lastLine).length →
          pyFloat ((pySplitTab lastLine).getD 1 "") = none →
          extractDdg file = none))) := by
  constructor
  · rintro rfl; rfl
  · rintro content rfl
    constructor
    · intro hnone
      simp only [extractDdg, hnone]
    · intro lastLine hlast
      refine ⟨?_, ?_, ?_⟩
      · intro hlt
        simp only [extractDdg, hlast]
        rw [if_neg (by omega)]
      · intro v hge hfloat
        simp only [extractDdg, hlast]
        rw [if_pos (by omega), if_neg (by rw [pyFloat_no_total hfloat]; exact fun h => nomatch h)]
        exact hfloat
      · intro hge hfloat
        simp only [extractDdg, hlast]
        rw [if_pos (by omega)]
        by_cases htot : pyContains ((pySplitTab lastLine).getD 1 "") "Total" = true
        · rw [if_pos htot]
        · rw [if_neg htot]
          exact hfloat

/-- Witness for C7's amended theorem: a two-line fxout whose last line
has three fields and numeric second field `2.5`. -/
theorem extractDdg_last_line_parse_witness :
    extractDdg (some "h\nx\t2.5\ty\n") = some (mkRat 5 2) :=
  (((extractDdg_last_line_parse (some "h\nx\t2.5\ty\n")).2 "h\nx\t2.5\ty\n" rfl).2
      "x\t2.5\ty\n" (by decide)).2.1 (mkRat 5 2) (by decide) (by decide)

/-! ## Helper lemmas: the per-mutation loop -/

lemma RunLog.nil_cat (x : RunLog) : RunLog.nil.cat x = x := by
  simp [RunLog.cat, RunLog.nil]

lemma processMutation_spec (eng : Engine) (u : String) (row : MutRow)
    (c : Finset String) (b : List OutRow) (n : Nat) :
    (mutKey row ∈ c ∧ processMutation eng u row (c, b, n) = ((c, b, n), RunLog.nil)) ∨
    (mutKey row ∉ c ∧ eng.buildOk row = true ∧
      processMutation eng u row (c, b, n) =
        ((insert (mutKey row) c,
          b ++ [⟨row, extractDdg (eng.fxoutAfter row), finalPdbName row⟩], n + 1),
         ⟨[row], [], [], mvWarn eng row, mvMoves eng u row⟩)) ∨
    (mutKey row ∉ c ∧ eng.buildOk row = false ∧
      processMutation eng u row (c, b, n) = ((c, b, n), ⟨[row], [], [], [], []⟩)) := by
  by_cases hmem : mutKey row ∈ c
  · exact Or.inl ⟨hmem, by simp only [processMutation]; rw [if_pos hmem]⟩
  · by_cases hb : eng.buildOk row = true
    · refine Or.inr (Or.inl ⟨hmem, hb, ?_⟩)
      simp only [processMutation]
      rw [if_neg hmem, if_pos hb]
    · refine Or.inr (Or.inr ⟨hmem, by simpa using hb, ?_⟩)
      simp only [processMutation]
      rw [if_neg hmem, if_neg hb]

lemma processMutations_spec (eng : Engine) (u : String) (rs : List MutRow) :
    ∀ (c : Finset String) (b : List OutRow) (n : Nat),
    ∃ newRows : List OutRow,
      (processMutations eng u rs (c, b, n)).1 =
        (c ∪ (newRows.map outKey).toFinset, b ++ newRows, n + newRows.length) ∧
      (∀ o ∈ newRows, o.mrow ∈ rs ∧ eng.buildOk o.mrow = true ∧ outKey o ∉ c) ∧
      (newRows.map outKey).Nodup ∧
      (processMutations eng u rs (c, b, n)).2.converts = [] ∧
      (processMutations eng u rs (c, b, n)).2.repairs = [] := by
  induction rs with
  | nil =>
    intro c b n
    exact ⟨[], by simp [processMutations, RunLog.nil], by simp, by simp,
      by simp [processMutations, RunLog.nil], by simp [processMutations, RunLog.nil]⟩
  | cons r rs ih =>
    intro c b n
    rcases processMutation_spec eng u r c b n with ⟨hmem, heq⟩ | ⟨hmem, hb, heq⟩ | ⟨hmem, hb, heq⟩
    · rcases ih c b n with ⟨newRows, h1, h2, h3, h4, h5⟩
      refine ⟨newRows, ?_, ?_, h3, ?_, ?_⟩
      · simp only [processMutations, heq, h1]
      · intro o ho
        exact ⟨List.mem_cons_of_mem _ (h2 o ho).1, (h2 o ho).2.1, (h2 o ho).2.2⟩
      · simp only [processMutations, heq, RunLog.cat, RunLog.nil, List.nil_append, h4]
      · simp only [processMutations, heq, RunLog.cat, RunLog.nil, List.nil_append, h5]
    · rcases ih (insert (mutKey r) c)
        (b ++ [⟨r, extractDdg (eng.fxoutAfter r), finalPdbName r⟩]) (n + 1) with
        ⟨newRows, h1, h2, h3, h4, h5⟩
      refine ⟨⟨r, extractDdg (eng.fxoutAfter r), finalPdbName r⟩ :: newRows, ?_, ?_, ?_, ?_, ?_⟩
      · simp only [processMutations, heq, h1, List.map_cons, List.toFinset_cons]
        refine Prod.ext ?_ (Prod.ext ?_ ?_)
        · show insert (mutKey r) c ∪ (newRows.map outKey).toFinset =
            c ∪ insert (outKey ⟨r, extractDdg (eng.fxoutAfter r), finalPdbName r⟩)
              (newRows.map outKey).toFinset
          rw [Finset.insert_union, Finset.union_insert]
          rfl
        · show (b ++ [⟨r, extractDdg (eng.fxoutAfter r), finalPdbName r⟩]) ++ newRows =
            b ++ (⟨r, extractDdg (eng.fxoutAfter r), finalPdbName r⟩ :: newRows)
          simp
        · show n + 1 + newRows.length = n + (newRows.length + 1)
          omega
      · intro o ho
        rcases List.mem_cons.mp ho with rfl | ho'
        · exact ⟨List.mem_cons_self _ _, hb, hmem⟩
        · refine ⟨List.mem_cons_of_mem _ (h2 o ho').1, (h2 o ho').2.1, ?_⟩
          intro hoc
          exact (h2 o ho').2.2 (Finset.mem_insert_of_mem hoc)
      · simp only [List.map_cons, List.nodup_cons]
        refine ⟨?_, h3⟩
        intro hmemk
        rcases List.mem_map.mp hmemk with ⟨o, ho, hko⟩
        exact (h2 o ho).2.2 (hko ▸ Finset.mem_insert_self _ _)
      · simp only [processMutations, heq, RunLog.cat, List.nil_append, h4, List.append_nil]
      · simp only [processMutations, heq, RunLog.cat, List.nil_append, h5, List.append_nil]
    · rcases ih c b n with ⟨newRows, h1, h2, h3, h4, h5⟩
      refine ⟨newRows, ?_, ?_, h3, ?_, ?_⟩
      · simp only [processMutations, heq, h1]
      · intro o ho
        exact ⟨List.mem_cons_of_mem _ (h2 o ho).1, (h2 o ho).2.1, (h2 o ho).2.2⟩
      · simp only [processMutations, heq, RunLog.cat, List.nil_append, h4, List.append_nil]
      · simp only [processMutations, heq, RunLog.cat, List.nil_append, h5, List.append_nil]

lemma processMutations_mono (eng : Engine) (u : String) (rs : List MutRow)
    (c : Finset String) (b : List OutRow) (n : Nat) :
    c ⊆ (processMutations eng u rs (c, b, n)).1.1 := by
  rcases processMutations_spec eng u rs c b n with ⟨newRows, h1, _, _, _, _⟩
  rw [h1]
  exact Finset.subset_union_left

lemma processMutations_pending_fail (eng : Engine) (u : String) (rs : List MutRow) :
    ∀ (c : Finset String) (b : List OutRow) (n : Nat),
    ∀ r ∈ rs, mutKey r ∉ (processMutations eng u rs (c, b, n)).1.1 →
      mutKey r ∉ c ∧ eng.buildOk r = false := by
  induction rs with
  | nil => intro c b n r hr; cases hr
  | cons h rs ih =>
    intro c b n r hr hpend
    rcases processMutation_spec eng u h c b n with ⟨hmem, heq⟩ | ⟨hmem, hb, heq⟩ | ⟨hmem, hb, heq⟩
    · rcases List.mem_cons.mp hr with rfl | hr'
      · exfalso
        apply hpend
        simp only [processMutations, heq]
        exact processMutations_mono eng u rs c b n hmem
      · have := ih c b n r hr' (by simpa only [processMutations, heq] using hpend)
        exact this
    · rcases List.mem_cons.mp hr with rfl | hr'
      · exfalso
        apply hpend
        simp only [processMutations, heq]
        exact processMutations_mono eng u rs _ _ _ (Finset.mem_insert_self _ _)
      · have := ih (insert (mutKey h) c)
          (b ++ [⟨h, extractDdg (eng.fxoutAfter h), finalPdbName h⟩]) (n + 1) r hr'
          (by simpa only [processMutations, heq] using hpend)
        exact ⟨fun hc => this.1 (Finset.mem_insert_of_mem hc), this.2⟩
    · rcases List.mem_cons.mp hr with rfl | hr'
      · refine ⟨hmem, hb⟩
      · exact ih c b n r hr' (by simpa only [processMutations, heq] using hpend)

lemma processMutations_attempted (eng : Engine) (u : String) (rs : List MutRow) :
    ∀ (c : Finset String) (b : List OutRow) (n : Nat) (r : MutRow), r ∈ rs →
    mutKey r ∉ c → (∀ r2 ∈ rs, mutKey r2 = mutKey r → r2 = r) →
    r ∈ (processMutations eng u rs (c, b, n)).2.attempts := by
  induction rs with
  | nil => intro c b n r hr; cases hr
  | cons h rs ih =>
    intro c b n r hr hpend huniq
    rcases processMutation_spec eng u h c b n with ⟨hmem, heq⟩ | ⟨hmem, hb, heq⟩ | ⟨hmem, hb, heq⟩
    · rcases List.mem_cons.mp hr with rfl | hr'
      · exact absurd hmem hpend
      · simp only [processMutations, heq, RunLog.cat, RunLog.nil, List.nil_append]
        exact ih c b n r hr' hpend (fun r2 h2 => huniq r2 (List.mem_cons_of_mem _ h2))
    · rcases List.mem_cons.mp hr with rfl | hr'
      · simp only [processMutations, heq, RunLog.cat]
        exact List.mem_append.mpr (Or.inl (List.mem_singleton.mpr rfl))
      · by_cases hkey : mutKey h = mutKey r
        · have : h = r := huniq h (List.mem_cons_self _ _) hkey
          subst this
          simp only [processMutations, heq, RunLog.cat]
          exact List.mem_append.mpr (Or.inl (List.mem_singleton.mpr rfl))
        · simp only [processMutations, heq, RunLog.cat]
          refine List.mem_append.mpr (Or.inr ?_)
          refine ih _ _ _ r hr' ?_ (fun r2 h2 => huniq r2 (List.mem_cons_of_mem _ h2))
          intro hc
          rcases Finset.mem_insert.mp hc with hc1 | hc2
          · exact hkey hc1.symm
          · exact hpend hc2
    · rcases List.mem_cons.mp hr with rfl | hr'
      · simp only [processMutations, heq, RunLog.cat]
        exact List.mem_append.mpr (Or.inl (List.mem_singleton.mpr rfl))
      · simp only [processMutations, heq, RunLog.cat]
        refine List.mem_append.mpr (Or.inr ?_)
        exact ih c b n r hr' hpend (fun r2 h2 => huniq r2 (List.mem_cons_of_mem _ h2))

lemma processMutations_indep (eng : Engine) (u : String) (rs : List MutRow) :
    ∀ (c : Finset String) (b : List OutRow) (n m : Nat),
    (processMutations eng u rs (c, b, n)).1.1 = (processMutations eng u rs (c, b, m)).1.1 ∧
    (processMutations eng u rs (c, b, n)).1.2.1 =
      (processMutations eng u rs (c, b, m)).1.2.1 ∧
    (processMutations eng u rs (c, b, n)).2 = (processMutations eng u rs (c, b, m)).2 := by
  induction rs with
  | nil => intro c b n m; exact ⟨rfl, rfl, rfl⟩
  | cons h rs ih =>
    intro c b n m
    rcases processMutation_spec eng u h c b n with ⟨hmem, heq⟩ | ⟨hmem, hb, heq⟩ | ⟨hmem, hb, heq⟩
    · rcases processMutation_spec eng u h c b m with ⟨_, heq'⟩ | ⟨hmem', _, _⟩ | ⟨hmem', _, _⟩
      · simp only [processMutations, heq, heq']
        exact ⟨(ih c b n m).1, (ih c b n m).2.1, by rw [(ih c b n m).2.2]⟩
      · exact absurd hmem hmem'
      · exact absurd hmem hmem'
    · rcases processMutation_spec eng u h c b m with ⟨hmem', _⟩ | ⟨_, _, heq'⟩ | ⟨_, hb', _⟩
      · exact absurd hmem' hmem
      · simp only [processMutations, heq, heq']
        refine ⟨(ih _ _ (n + 1) (m + 1)).1, (ih _ _ (n + 1) (m + 1)).2.1, ?_⟩
        rw [(ih _ _ (n + 1) (m + 1)).2.2]
      · rw [hb] at hb'; cases hb'
    · rcases processMutation_spec eng u h c b m with ⟨hmem', _⟩ | ⟨_, hb', _⟩ | ⟨_, _, heq'⟩
      · exact absurd hmem' hmem
      · rw [hb] at hb'; cases hb'
      · simp only [processMutations, heq, heq']
        exact ⟨(ih c b n m).1, (ih c b n m).2.1, by rw [(ih c b n m).2.2]⟩

/-! ## Helper lemmas: the per-protein loop -/

lemma allDone_iff (w : WState) (g : String × List MutRow) :
    g.2.all (fun r => decide (mutKey r ∈ w.completed)) = true ↔
      ∀ r ∈ g.2, mutKey r ∈ w.completed := by
  rw [List.all_eq_true]
  constructor
  · intro h r hr; exact of_decide_eq_true (h r hr)
  · intro h r hr; exact decide_eq_true (h r hr)

lemma processGroup_spec (eng : Engine) (w : WState) (n : Nat) (g : String × List MutRow) :
    ((∀ r ∈ g.2, mutKey r ∈ w.completed) ∧
      processGroup eng (w, n) g = ((w, n), false, RunLog.nil)) ∨
    ((¬ ∀ r ∈ g.2, mutKey r ∈ w.completed) ∧
      ((g.1 ∈ w.repaired ∧
         processGroup eng (w, n) g = runReadyGroup eng (w, n) g w.repaired RunLog.nil) ∨
       (g.1 ∉ w.repaired ∧ eng.convertOk (structFileOf g) = true ∧
         eng.repairOk g.1 = true ∧
         processGroup eng (w, n) g =
           runReadyGroup eng (w, n) g (insert g.1 w.repaired) ⟨[], [g.1], [g.1], [], []⟩) ∨
       (g.1 ∉ w.repaired ∧ eng.convertOk (structFileOf g) = true ∧
         eng.repairOk g.1 = false ∧
         processGroup eng (w, n) g = ((w, n), false, ⟨[], [g.1], [g.1], [], []⟩)) ∨
       (g.1 ∉ w.repaired ∧ eng.convertOk (structFileOf g) = false ∧
         processGroup eng (w, n) g = ((w, n), false, ⟨[], [g.1], [], [], []⟩)))) := by
  by_cases hall : g.2.all (fun r => decide (mutKey r ∈ (w, n).1.completed)) = true
  · exact Or.inl ⟨(allDone_iff w g).mp hall, by simp only [processGroup]; rw [if_pos hall]⟩
  · refine Or.inr ⟨fun hforall => hall ((allDone_iff w g).mpr hforall), ?_⟩
    by_cases hrep : g.1 ∈ w.repaired
    · refine Or.inl ⟨hrep, ?_⟩
      simp only [processGroup]
      rw [if_neg hall, if_pos hrep]
    · by_cases hconv : eng.convertOk (structFileOf g) = true
      · by_cases hfix : eng.repairOk g.1 = true
        · refine Or.inr (Or.inl ⟨hrep, hconv, hfix, ?_⟩)
          simp only [processGroup]
          rw [if_neg hall, if_neg hrep, if_pos hconv, if_pos hfix]
        · refine Or.inr (Or.inr (Or.inl ⟨hrep, hconv, by simpa using hfix, ?_⟩))
          simp only [processGroup]
          rw [if_neg hall, if_neg hrep, if_pos hconv, if_neg hfix]
      · refine Or.inr (Or.inr (Or.inr ⟨hrep, by simpa using hconv, ?_⟩))
        simp only [processGroup]
        rw [if_neg hall, if_neg hrep, if_neg hconv]

lemma processGroup_delta (eng : Engine) (w : WState) (n : Nat) (g : String × List MutRow) :
    ∃ newRows : List OutRow,
      (processGroup eng (w, n) g).1.1.completed =
        w.completed ∪ (newRows.map outKey).toFinset ∧
      (processGroup eng (w, n) g).1.1.rows = w.rows ++ newRows ∧
      (∀ o ∈ newRows, o.mrow ∈ g.2 ∧ eng.buildOk o.mrow = true ∧
        outKey o ∉ w.completed) ∧
      (newRows.map outKey).Nodup ∧
      w.repaired ⊆ (processGroup eng (w, n) g).1.1.repaired ∧
      (processGroup eng (w, n) g).1.1.repaired ⊆ insert g.1 w.repaired ∧
      (∀ q ∈ (processGroup eng (w, n) g).2.2.converts, q = g.1 ∧ g.1 ∉ w.repaired) ∧
      (∀ q ∈ (processGroup eng (w, n) g).2.2.repairs, q = g.1 ∧ g.1 ∉ w.repaired) := by
  rcases processGroup_spec eng w n g with ⟨hdone, heq⟩ |
    ⟨hnot, ⟨hrep, heq⟩ | ⟨hrep, hconv, hfix, heq⟩ | ⟨hrep, hconv, hfix, heq⟩ |
      ⟨hrep, hconv, heq⟩⟩
  · refine ⟨[], ?_, ?_, by simp, by simp, ?_, ?_, ?_, ?_⟩ <;> rw [heq] <;> simp [RunLog.nil]
  · rcases processMutations_spec eng g.1 g.2 w.completed [] n with ⟨newRows, h1, h2, h3, h4, h5⟩
    refine ⟨newRows, ?_, ?_, fun o ho => ⟨(h2 o ho).1, (h2 o ho).2.1, (h2 o ho).2.2⟩, h3,
      ?_, ?_, ?_, ?_⟩
    · rw [heq]
      simp only [runReadyGroup, h1]
    · rw [heq]
      simp only [runReadyGroup, h1, List.nil_append]
    · rw [heq]; simp only [runReadyGroup]; exact Finset.Subset.refl _
    · rw [heq]; simp only [runReadyGroup]; exact Finset.subset_insert _ _
    · rw [heq]
      simp only [runReadyGroup, RunLog.nil_cat, h5, h4]
      intro q hq; cases hq
    · rw [heq]
      simp only [runReadyGroup, RunLog.nil_cat, h5, h4]
      intro q hq; cases hq
  · rcases processMutations_spec eng g.1 g.2 w.completed [] n with ⟨newRows, h1, h2, h3, h4, h5⟩
    refine ⟨newRows, ?_, ?_, fun o ho => ⟨(h2 o ho).1, (h2 o ho).2.1, (h2 o ho).2.2⟩, h3,
      ?_, ?_, ?_, ?_⟩
    · rw [heq]
      simp only [runReadyGroup, h1]
    · rw [heq]
      simp only [runReadyGroup, h1, List.nil_append]
    · rw [heq]; simp only [runReadyGroup]; exact Finset.subset_insert _ _
    · rw [heq]; simp only [runReadyGroup]; exact Finset.Subset.refl _
    · rw [heq]
      simp only [runReadyGroup, RunLog.cat, h4, List.append_nil]
      intro q hq
      exact ⟨List.mem_singleton.mp hq, hrep⟩
    · rw [heq]
      simp only [runReadyGroup, RunLog.cat, h5, List.append_nil]
      intro q hq
      exact ⟨List.mem_singleton.mp hq, hrep⟩
  · refine ⟨[], by rw [heq]; simp, by rw [heq]; simp, by simp, by simp,
      by rw [heq],
      by rw [heq]; exact Finset.subset_insert _ _, ?_, ?_⟩
    · rw [heq]
      intro q hq
      exact ⟨List.mem_singleton.mp hq, hrep⟩
    · rw [heq]
      intro q hq
      exact ⟨List.mem_singleton.mp hq, hrep⟩
  · refine ⟨[], by rw [heq]; simp, by rw [heq]; simp, by simp, by simp,
      by rw [heq],
      by rw [heq]; exact Finset.subset_insert _ _, ?_, ?_⟩
    · rw [heq]
      intro q hq
      exact ⟨List.mem_singleton.mp hq, hrep⟩
    · rw [heq]
      intro q hq
      cases hq

/-- A group is *stable* in worker state `w` when reprocessing it cannot
change the state: either all its keys are completed, or its artifact is
cached and every pending mutation's BuildModel fails, or its prep phase
fails (no artifact and conversion or repair fails). -/
def GroupStable (eng : Engine) (w : WState) (g : String × List MutRow) : Prop :=
  (∀ r ∈ g.2, mutKey r ∈ w.completed) ∨
  (g.1 ∈ w.repaired ∧ ∀ r ∈ g.2, mutKey r ∉ w.completed → eng.buildOk r = false) ∨
  (g.1 ∉ w.repaired ∧
    (eng.convertOk (structFileOf g) = false ∨ eng.repairOk g.1 = false))

lemma groupStable_fixed (eng : Engine) (w : WState) (g : String × List MutRow)
    (hstab : GroupStable eng w g) (n : Nat) :
    (processGroup eng (w, n) g).1 = (w, n) := by
  rcases processGroup_spec eng w n g with ⟨hdone, heq⟩ |
    ⟨hnot, ⟨hrep, heq⟩ | ⟨hrep, hconv, hfix, heq⟩ | ⟨hrep, hconv, hfix, heq⟩ |
      ⟨hrep, hconv, heq⟩⟩
  · rw [heq]
  · rcases hstab with hdone | ⟨_, hfail⟩ | ⟨hnorep, _⟩
    · exact absurd hdone hnot
    · rcases processMutations_spec eng g.1 g.2 w.completed [] n with
        ⟨newRows, h1, h2, _, _, _⟩
      have hnil : newRows = [] := by
        rcases newRows with _ | ⟨o, os⟩
        · rfl
        · exfalso
          have ho := h2 o (List.mem_cons_self o os)
          have : (true : Bool) = false := ho.2.1.symm.trans (hfail o.mrow ho.1 ho.2.2)
          cases this
      rw [heq]
      simp only [runReadyGroup, h1, hnil]
      simp
    · exact absurd hrep hnorep
  · rcases hstab with hdone | ⟨hinrep, _⟩ | ⟨_, hbad | hbad⟩
    · exact absurd hdone hnot
    · exact absurd hinrep hrep
    · rw [hconv] at hbad; cases hbad
    · rw [hfix] at hbad; cases hbad
  · rw [heq]
  · rw [heq]

lemma groupStable_post (eng : Engine) (w : WState) (n : Nat) (g : String × List MutRow) :
    GroupStable eng (processGroup eng (w, n) g).1.1 g := by
  rcases processGroup_spec eng w n g with ⟨hdone, heq⟩ |
    ⟨hnot, ⟨hrep, heq⟩ | ⟨hrep, hconv, hfix, heq⟩ | ⟨hrep, hconv, hfix, heq⟩ |
      ⟨hrep, hconv, heq⟩⟩
  · rw [heq]; exact Or.inl hdone
  · rw [heq]
    refine Or.inr (Or.inl ⟨hrep, ?_⟩)
    intro r hr hpend
    exact (processMutations_pending_fail eng g.1 g.2 w.completed [] n r hr hpend).2
  · rw [heq]
    refine Or.inr (Or.inl ⟨Finset.mem_insert_self _ _, ?_⟩)
    intro r hr hpend
    exact (processMutations_pending_fail eng g.1 g.2 w.completed [] n r hr hpend).2
  · rw [heq]; exact Or.inr (Or.inr ⟨hrep, Or.inr hfix⟩)
  · rw [heq]; exact Or.inr (Or.inr ⟨hrep, Or.inl hconv⟩)

lemma groupStable_preserved (eng : Engine) (w : WState) (n : Nat)
    (g g' : String × List MutRow) (hstab : GroupStable eng w g) (hne : g'.1 ≠ g.1) :
    GroupStable eng (processGroup eng (w, n) g').1.1 g := by
  rcases processGroup_delta eng w n g' with
    ⟨newRows, hcomp, _, _, _, hrepmono, hrepbound, _, _⟩
  rcases hstab with hdone | ⟨hinrep, hfail⟩ | ⟨hnorep, hbad⟩
  · refine Or.inl fun r hr => ?_
    rw [hcomp]
    exact Finset.mem_union_left _ (hdone r hr)
  · refine Or.inr (Or.inl ⟨hrepmono hinrep, ?_⟩)
    intro r hr hpend
    refine hfail r hr fun hc => hpend ?_
    rw [hcomp]
    exact Finset.mem_union_left _ hc
  · refine Or.inr (Or.inr ⟨?_, hbad⟩)
    intro hmem
    rcases Finset.mem_insert.mp (hrepbound hmem) with h | h
    · exact hne h.symm
    · exact hnorep h

lemma processGroup_indep (eng : Engine) (w : WState) (n m : Nat)
    (g : String × List MutRow) :
    (processGroup eng (w, n) g).1.1 = (processGroup eng (w, m) g).1.1 ∧
    (processGroup eng (w, n) g).2.1 = (processGroup eng (w, m) g).2.1 ∧
    (processGroup eng (w, n) g).2.2 = (processGroup eng (w, m) g).2.2 := by
  simp only [processGroup]
  by_cases hall : g.2.all (fun r => decide (mutKey r ∈ w.completed)) = true
  · rw [if_pos hall, if_pos hall]
    exact ⟨rfl, rfl, rfl⟩
  · rw [if_neg hall, if_neg hall]
    by_cases hrep : g.1 ∈ w.repaired
    · rw [if_pos hrep, if_pos hrep]
      simp only [runReadyGroup]
      refine ⟨?_, trivial, ?_⟩
      · rw [(processMutations_indep eng g.1 g.2 w.completed [] n m).1,
          (processMutations_indep eng g.1 g.2 w.completed [] n m).2.1]
      · rw [(processMutations_indep eng g.1 g.2 w.completed [] n m).2.2]
    · rw [if_neg hrep, if_neg hrep]
      by_cases hconv : eng.convertOk (structFileOf g) = true
      · rw [if_pos hconv, if_pos hconv]
        by_cases hfix : eng.repairOk g.1 = true
        · rw [if_pos hfix, if_pos hfix]
          simp only [runReadyGroup]
          refine ⟨?_, trivial, ?_⟩
          · rw [(processMutations_indep eng g.1 g.2 w.completed [] n m).1,
              (processMutations_indep eng g.1 g.2 w.completed [] n m).2.1]
          · rw [(processMutations_indep eng g.1 g.2 w.completed [] n m).2.2]
        · rw [if_neg hfix, if_neg hfix]
          exact ⟨rfl, rfl, rfl⟩
      · rw [if_neg hconv, if_neg hconv]
        exact ⟨rfl, rfl, rfl⟩

lemma runGroups_zero_cons (eng : Engine) (g : String × List MutRow)
    (gs : List (String × List MutRow)) (st : WState × Nat) :
    runGroups eng 0 (g :: gs) st =
      ((runGroups eng 0 gs (processGroup eng st g).1).1,
       (processGroup eng st g).2.2.cat
         (runGroups eng 0 gs (processGroup eng st g).1).2) := by
  simp only [runGroups]
  rw [if_neg (by simp)]

lemma runGroups_stable_noop (eng : Engine) (gs : List (String × List MutRow)) :
    ∀ (w : WState) (n : Nat), (∀ g ∈ gs, GroupStable eng w g) →
    (runGroups eng 0 gs (w, n)).1 = (w, n) := by
  induction gs with
  | nil => intro w n _; rfl
  | cons g gs ih =>
    intro w n hstab
    rw [runGroups_zero_cons]
    simp only [groupStable_fixed eng w g (hstab g (List.mem_cons_self _ _)) n]
    exact ih w n fun g' hg' => hstab g' (List.mem_cons_of_mem _ hg')

lemma runGroups_stable_through (eng : Engine) (gs : List (String × List MutRow)) :
    ∀ (w : WState) (n : Nat) (g : String × List MutRow),
    GroupStable eng w g → (∀ g' ∈ gs, g'.1 ≠ g.1) →
    GroupStable eng (runGroups eng 0 gs (w, n)).1.1 g := by
  induction gs with
  | nil => intro w n g h _; exact h
  | cons g0 gs ih =>
    intro w n g h hne
    rw [runGroups_zero_cons]
    exact ih (processGroup eng (w, n) g0).1.1 (processGroup eng (w, n) g0).1.2 g
      (groupStable_preserved eng w n g g0 h (hne g0 (List.mem_cons_self _ _)))
      fun g' hg' => hne g' (List.mem_cons_of_mem _ hg')

lemma runGroups_all_stable (eng : Engine) (gs : List (String × List MutRow)) :
    ∀ (w : WState) (n : Nat), (gs.map Prod.fst).Nodup →
    ∀ g ∈ gs, GroupStable eng (runGroups eng 0 gs (w, n)).1.1 g := by
  induction gs with
  | nil => intro w n _ g hg; cases hg
  | cons g0 gs ih =>
    intro w n hnd g hg
    rw [runGroups_zero_cons]
    rcases List.mem_cons.mp hg with rfl | hg'
    · refine runGroups_stable_through eng gs (processGroup eng (w, n) g).1.1
        (processGroup eng (w, n) g).1.2 g (groupStable_post eng w n g) ?_
      intro g' hg' heq
      have : g.1 ∈ gs.map Prod.fst := List.mem_map.mpr ⟨g', hg', heq⟩
      exact (List.nodup_cons.mp hnd).1 this
    · exact ih (processGroup eng (w, n) g0).1.1 (processGroup eng (w, n) g0).1.2
        (List.nodup_cons.mp hnd).2 g hg'

lemma runGroups_zero_indep (eng : Engine) (gs : List (String × List MutRow)) :
    ∀ (w : WState) (n m : Nat),
    (runGroups eng 0 gs (w, n)).1.1 = (runGroups eng 0 gs (w, m)).1.1 := by
  induction gs with
  | nil => intro w n m; rfl
  | cons g gs ih =>
    intro w n m
    rw [runGroups_zero_cons, runGroups_zero_cons]
    have hw := (processGroup_indep eng w n m g).1
    calc (runGroups eng 0 gs (processGroup eng (w, n) g).1).1.1
        = (runGroups eng 0 gs
            ((processGroup eng (w, n) g).1.1, (processGroup eng (w, n) g).1.2)).1.1 := rfl
      _ = (runGroups eng 0 gs
            ((processGroup eng (w, n) g).1.1, (processGroup eng (w, m) g).1.2)).1.1 :=
          ih _ _ _
      _ = (runGroups eng 0 gs
            ((processGroup eng (w, m) g).1.1, (processGroup eng (w, m) g).1.2)).1.1 := by
          rw [hw]
      _ = (runGroups eng 0 gs (processGroup eng (w, m) g).1).1.1 := rfl

lemma runGroups_limit_prefix (eng : Engine) (limit : Nat)
    (gs : List (String × List MutRow)) :
    ∀ st : WState × Nat,
    ∃ k, (runGroups eng limit gs st).1 = (runGroups eng 0 (gs.take k) st).1 := by
  induction gs with
  | nil => intro st; exact ⟨0, rfl⟩
  | cons g gs ih =>
    intro st
    by_cases hbrk : ((processGroup eng st g).2.1 && !(limit == 0) &&
        decide (limit ≤ (processGroup eng st g).1.2)) = true
    · refine ⟨1, ?_⟩
      show (runGroups eng limit (g :: gs) st).1 = (runGroups eng 0 (g :: []) st).1
      rw [runGroups_zero_cons]
      simp only [runGroups]
      rw [if_pos hbrk]
    · rcases ih (processGroup eng st g).1 with ⟨k, hk⟩
      refine ⟨k + 1, ?_⟩
      show (runGroups eng limit (g :: gs) st).1 =
        (runGroups eng 0 (g :: gs.take k) st).1
      rw [runGroups_zero_cons]
      simp only [runGroups]
      rw [if_neg hbrk]
      exact hk

lemma runGroups_zero_append (eng : Engine) (a b : List (String × List MutRow)) :
    ∀ st : WState × Nat,
    (runGroups eng 0 (a ++ b) st).1 = (runGroups eng 0 b (runGroups eng 0 a st).1).1 := by
  induction a with
  | nil => intro st; rfl
  | cons g a ih =>
    intro st
    rw [List.cons_append, runGroups_zero_cons, runGroups_zero_cons]
    exact ih (processGroup eng st g).1

lemma processGroup_invariant (eng : Engine) (df : List MutRow) (w : WState) (n : Nat)
    (g : String × List MutRow) (hg : ∀ r ∈ g.2, r ∈ df)
    (hP : w.completed = (w.rows.map outKey).toFinset)
    (hN : (w.rows.map outKey).Nodup)
    (hR : ∀ o ∈ w.rows, o.mrow ∈ df ∧ eng.buildOk o.mrow = true) :
    (processGroup eng (w, n) g).1.1.completed =
      ((processGroup eng (w, n) g).1.1.rows.map outKey).toFinset ∧
    ((processGroup eng (w, n) g).1.1.rows.map outKey).Nodup ∧
    ∀ o ∈ (processGroup eng (w, n) g).1.1.rows,
      o.mrow ∈ df ∧ eng.buildOk o.mrow = true := by
  rcases processGroup_delta eng w n g with ⟨newRows, hcomp, hrows, hprops, hnd, _, _, _, _⟩
  refine ⟨?_, ?_, ?_⟩
  · rw [hcomp, hrows, hP, List.map_append, List.toFinset_append]
  · rw [hrows, List.map_append]
    refine hN.append hnd ?_
    intro x hx1 hx2
    rcases List.mem_map.mp hx2 with ⟨o, ho, rfl⟩
    have := (hprops o ho).2.2
    rw [hP] at this
    exact this (List.mem_toFinset.mpr hx1)
  · intro o ho
    rw [hrows] at ho
    rcases List.mem_append.mp ho with h | h
    · exact hR o h
    · exact ⟨hg o.mrow (hprops o h).1, (hprops o h).2.1⟩

lemma runGroups_invariant (eng : Engine) (limit : Nat) (df : List MutRow)
    (gs : List (String × List MutRow)) :
    ∀ (w : WState) (n : Nat),
    (∀ g ∈ gs, ∀ r ∈ g.2, r ∈ df) →
    w.completed = (w.rows.map outKey).toFinset →
    (w.rows.map outKey).Nodup →
    (∀ o ∈ w.rows, o.mrow ∈ df ∧ eng.buildOk o.mrow = true) →
    ((runGroups eng limit gs (w, n)).1.1.completed =
        ((runGroups eng limit gs (w, n)).1.1.rows.map outKey).toFinset ∧
      ((runGroups eng limit gs (w, n)).1.1.rows.map outKey).Nodup ∧
      ∀ o ∈ (runGroups eng limit gs (w, n)).1.1.rows,
        o.mrow ∈ df ∧ eng.buildOk o.mrow = true) := by
  induction gs with
  | nil => intro w n _ hP hN hR; exact ⟨hP, hN, hR⟩
  | cons g gs ih =>
    intro w n hgs hP hN hR
    have hstep := processGroup_invariant eng df w n g
      (hgs g (List.mem_cons_self _ _)) hP hN hR
    simp only [runGroups]
    by_cases hbrk : ((processGroup eng (w, n) g).2.1 && !(limit == 0) &&
        decide (limit ≤ (processGroup eng (w, n) g).1.2)) = true
    · rw [if_pos hbrk]
      exact hstep
    · rw [if_neg hbrk]
      exact ih (processGroup eng (w, n) g).1.1 (processGroup eng (w, n) g).1.2
        (fun g' hg' => hgs g' (List.mem_cons_of_mem _ hg')) hstep.1 hstep.2.1 hstep.2.2

/-! ## Helper lemmas: groupByProtein -/

lemma groupByProtein_fst_nodup (df : List MutRow) :
    ((groupByProtein df).map Prod.fst).Nodup := by
  have h1 : (groupByProtein df).map Prod.fst
      = sortByLe strLe (df.map MutRow.uniprot).dedup := by
    rw [groupByProtein, List.map_map]
    exact List.map_id _
  rw [h1]
  exact ((sortByLe_perm strLe _).nodup_iff).mpr (List.nodup_dedup _)

lemma groupByProtein_rows (df : List MutRow) :
    ∀ g ∈ groupByProtein df, ∀ r ∈ g.2, r ∈ df ∧ r.uniprot = g.1 := by
  intro g hg r hr
  rcases List.mem_map.mp hg with ⟨u, _, rfl⟩
  have h := List.mem_filter.mp hr
  exact ⟨h.1, by simpa using h.2⟩

lemma groupByProtein_complete (df : List MutRow) (r : MutRow) (hr : r ∈ df) :
    (r.uniprot, df.filter (fun x => x.uniprot == r.uniprot)) ∈ groupByProtein df ∧
    r ∈ df.filter (fun x => x.uniprot == r.uniprot) := by
  constructor
  · refine List.mem_map.mpr ⟨r.uniprot, ?_, rfl⟩
    have h : r.uniprot ∈ df.map MutRow.uniprot := List.mem_map.mpr ⟨r, hr, rfl⟩
    exact ((sortByLe_perm strLe _).mem_iff).mpr (List.mem_dedup.mpr h)
  · exact List.mem_filter.mpr ⟨hr, by simp⟩

/-! ## Claim theorems: idempotent resume -/

/-- C1: for a chunk with pairwise-distinct identity keys, running the
worker once with a session budget `L`, then a second time (no budget)
against a copy of the first run's output file and workspace, yields the
same final completed-key set as one uninterrupted run; and the resumed
output file never contains two result rows with the same identity key.
(The model proves the no-duplicate part unconditionally; the
distinct-keys hypothesis is kept as the claim states it.) -/
theorem idempotent_resume (eng : Engine) (df : List MutRow) (L : Nat)
    (hkeys : (df.map mutKey).Nodup) :
    (run_foldx_process eng df (run_foldx_process eng df [] ∅ L).1.1.rows
        (run_foldx_process eng df [] ∅ L).1.1.repaired 0).1.1.completed =
      (run_foldx_process eng df [] ∅ 0).1.1.completed ∧
    ((run_foldx_process eng df (run_foldx_process eng df [] ∅ L).1.1.rows
        (run_foldx_process eng df [] ∅ L).1.1.repaired 0).1.1.rows.map outKey).Nodup := by
  have hgs : ∀ g ∈ groupByProtein df, ∀ r ∈ g.2, r ∈ df :=
    fun g hg r hr => (groupByProtein_rows df g hg r hr).1
  have hL : run_foldx_process eng df [] ∅ L =
      runGroups eng L (groupByProtein df) (⟨∅, [], ∅⟩, 0) := rfl
  have h0 : run_foldx_process eng df [] ∅ 0 =
      runGroups eng 0 (groupByProtein df) (⟨∅, [], ∅⟩, 0) := rfl
  rw [hL, h0]
  obtain ⟨k, hk⟩ := runGroups_limit_prefix eng L (groupByProtein df) (⟨∅, [], ∅⟩, 0)
  have hinv1 := runGroups_invariant eng L df (groupByProtein df) ⟨∅, [], ∅⟩ 0 hgs
    (by simp) (by simp) (by intro o ho; cases ho)
  set w1 : WState := (runGroups eng L (groupByProtein df) (⟨∅, [], ∅⟩, 0)).1.1 with hw1
  have hload : loadCompleted w1.rows = w1.completed := by
    rw [loadCompleted, hinv1.1]
  have hres : run_foldx_process eng df w1.rows w1.repaired 0 =
      runGroups eng 0 (groupByProtein df) (w1, 0) := by
    show runGroups eng 0 (groupByProtein df)
      (⟨loadCompleted w1.rows, w1.rows, w1.repaired⟩, 0) = _
    rw [hload]
  rw [hres]
  -- the state of the uninterrupted run after the first k groups is (w1, n1)
  have hpair : (runGroups eng 0 ((groupByProtein df).take k) (⟨∅, [], ∅⟩, 0)).1 =
      (w1, (runGroups eng 0 ((groupByProtein df).take k) (⟨∅, [], ∅⟩, 0)).1.2) := by
    rw [hw1, hk]
  have hsplit : groupByProtein df =
      (groupByProtein df).take k ++ (groupByProtein df).drop k :=
    (List.take_append_drop _ _).symm
  -- stability of the first k groups at w1
  have hndtake : (((groupByProtein df).take k).map Prod.fst).Nodup := by
    rw [List.map_take]
    exact (groupByProtein_fst_nodup df).sublist (List.take_sublist _ _)
  have hstable : ∀ g ∈ (groupByProtein df).take k, GroupStable eng w1 g := by
    intro g hg
    have h := runGroups_all_stable eng ((groupByProtein df).take k)
      ⟨∅, [], ∅⟩ 0 hndtake g hg
    rw [hw1, hk]
    exact h
  have hnoop := runGroups_stable_noop eng ((groupByProtein df).take k) w1 0 hstable
  -- resumed run = continuation over the remaining groups from (w1, 0)
  have hres2 : (runGroups eng 0 (groupByProtein df) (w1, 0)).1 =
      (runGroups eng 0 ((groupByProtein df).drop k) (w1, 0)).1 := by
    conv_lhs => rw [hsplit]
    rw [runGroups_zero_append, hnoop]
  -- uninterrupted run = continuation over the remaining groups from (w1, n1)
  have hUn : (runGroups eng 0 (groupByProtein df) (⟨∅, [], ∅⟩, 0)).1 =
      (runGroups eng 0 ((groupByProtein df).drop k)
        (w1, (runGroups eng 0 ((groupByProtein df).take k) (⟨∅, [], ∅⟩, 0)).1.2)).1 := by
    conv_lhs => rw [hsplit]
    rw [runGroups_zero_append, hpair]
  constructor
  · rw [hres2, hUn]
    rw [runGroups_zero_indep eng ((groupByProtein df).drop k) w1 0
      (runGroups eng 0 ((groupByProtein df).take k) (⟨∅, [], ∅⟩, 0)).1.2]
  · have hinv2 := runGroups_invariant eng 0 df (groupByProtein df) w1 0 hgs
      hinv1.1 hinv1.2.1 hinv1.2.2
    exact hinv2.2.1

/-- Concrete engine used in witnesses: conversion and repair always
succeed, BuildModel always exits zero, the fxout has a header line and a
data line with energy `2.5`, and the generated mutant structure file is
absent. -/
def exEngine : Engine :=
  ⟨fun _ => true, fun _ => true, fun _ => true,
   fun _ => some "h\nx\t2.5\ty\n", fun _ => false⟩

/-- Witness for C1 at a concrete chunk (one protein, two mutations) with
session budget 1: the first run stops at the first checkpoint, the
resumed run finishes whatever remains. -/
theorem idempotent_resume_witness :
    (run_foldx_process exEngine [exRow1, exRow2]
        (run_foldx_process exEngine [exRow1, exRow2] [] ∅ 1).1.1.rows
        (run_foldx_process exEngine [exRow1, exRow2] [] ∅ 1).1.1.repaired 0).1.1.completed =
      (run_foldx_process exEngine [exRow1, exRow2] [] ∅ 0).1.1.completed ∧
    ((run_foldx_process exEngine [exRow1, exRow2]
        (run_foldx_process exEngine [exRow1, exRow2] [] ∅ 1).1.1.rows
        (run_foldx_process exEngine [exRow1, exRow2] [] ∅ 1).1.1.repaired 0).1.1.rows.map
        outKey).Nodup :=
  idempotent_resume exEngine [exRow1, exRow2] 1 (by decide)

/-! ## Claim theorems: repair cache -/

/-- C6: once a protein's repaired artifact is present in the workspace
(membership in `repaired`, the model of `os.path.exists` on
`{uniprot}_Repair.pdb`), no later group iteration of any run starting
from that state invokes format conversion or RepairPDB for that protein
again, and the artifact stays present: readiness is decided by artifact
presence alone. -/
theorem repair_artifact_cached (eng : Engine) (limit : Nat)
    (gs : List (String × List MutRow)) :
    ∀ (w : WState) (n : Nat) (p : String), p ∈ w.repaired →
    p ∈ (runGroups eng limit gs (w, n)).1.1.repaired ∧
    p ∉ (runGroups eng limit gs (w, n)).2.converts ∧
    p ∉ (runGroups eng limit gs (w, n)).2.repairs := by
  induction gs with
  | nil =>
    intro w n p hp
    exact ⟨hp, List.not_mem_nil p, List.not_mem_nil p⟩
  | cons g gs ih =>
    intro w n p hp
    rcases processGroup_delta eng w n g with ⟨_, _, _, _, _, hmono, _, hcv, hrp⟩
    have hp' : p ∈ (processGroup eng (w, n) g).1.1.repaired := hmono hp
    have hcv' : p ∉ (processGroup eng (w, n) g).2.2.converts := by
      intro h
      exact (hcv p h).2 ((hcv p h).1 ▸ hp)
    have hrp' : p ∉ (processGroup eng (w, n) g).2.2.repairs := by
      intro h
      exact (hrp p h).2 ((hrp p h).1 ▸ hp)
    simp only [runGroups]
    by_cases hbrk : ((processGroup eng (w, n) g).2.1 && !(limit == 0) &&
        decide (limit ≤ (processGroup eng (w, n) g).1.2)) = true
    · rw [if_pos hbrk]
      exact ⟨hp', hcv', hrp'⟩
    · rw [if_neg hbrk]
      have hih := ih (processGroup eng (w, n) g).1.1 (processGroup eng (w, n) g).1.2 p hp'
      refine ⟨hih.1, ?_, ?_⟩
      · simp only [RunLog.cat, List.mem_append]
        rintro (h | h)
        · exact hcv' h
        · exact hih.2.1 h
      · simp only [RunLog.cat, List.mem_append]
        rintro (h | h)
        · exact hrp' h
        · exact hih.2.2 h

/-- Witness for C6: protein `P1` already repaired in the workspace; a run
over its group leaves the artifact in place and performs no conversion or
repair. -/
theorem repair_artifact_cached_witness :
    "P1" ∈ (runGroups exEngine 0 (groupByProtein [exRow1])
        (⟨∅, [], insert "P1" ∅⟩, 0)).1.1.repaired ∧
    "P1" ∉ (runGroups exEngine 0 (groupByProtein [exRow1])
        (⟨∅, [], insert "P1" ∅⟩, 0)).2.converts ∧
    "P1" ∉ (runGroups exEngine 0 (groupByProtein [exRow1])
        (⟨∅, [], insert "P1" ∅⟩, 0)).2.repairs :=
  repair_artifact_cached exEngine 0 (groupByProtein [exRow1])
    ⟨∅, [], insert "P1" ∅⟩ 0 "P1" (Finset.mem_insert_self _ _)

lemma runGroups_attempts (eng : Engine) (gs : List (String × List MutRow)) :
    ∀ (w : WState) (n : Nat) (g : String × List MutRow) (r : MutRow),
    g ∈ gs → r ∈ g.2 →
    mutKey r ∉ w.completed →
    (∀ g' ∈ gs, ∀ r' ∈ g'.2, mutKey r' = mutKey r → r' = r) →
    (gs.map Prod.fst).Nodup →
    (∀ g' ∈ gs, ∀ r' ∈ g'.2, r'.uniprot = g'.1) →
    (g.1 ∈ w.repaired ∨
      (eng.convertOk (structFileOf g) = true ∧ eng.repairOk g.1 = true)) →
    r ∈ (runGroups eng 0 gs (w, n)).2.attempts := by
  induction gs with
  | nil => intro w n g r hg; cases hg
  | cons g0 gs ih =>
    intro w n g r hg hr hpend huniq hnd hup hready
    rw [runGroups_zero_cons]
    rcases List.mem_cons.mp hg with rfl | hg'
    · have hatt : r ∈ (processGroup eng (w, n) g).2.2.attempts := by
        rcases processGroup_spec eng w n g with ⟨hdone, heq⟩ | ⟨hnot, hcases⟩
        · exact absurd (hdone r hr) hpend
        · have hpm : r ∈ (processMutations eng g.1 g.2 (w.completed, [], n)).2.attempts :=
            processMutations_attempted eng g.1 g.2 w.completed [] n r hr hpend
              fun r2 h2 hk => huniq g (List.mem_cons_self _ _) r2 h2 hk
          rcases hcases with ⟨hrep, heq⟩ | ⟨hrep, hconv, hfix, heq⟩ |
            ⟨hrep, hconv, hfix, heq⟩ | ⟨hrep, hconv, heq⟩
          · rw [heq]
            simp only [runReadyGroup, RunLog.nil_cat]
            exact hpm
          · rw [heq]
            simp only [runReadyGroup, RunLog.cat, List.nil_append]
            exact hpm
          · rcases hready with h | h
            · exact absurd h hrep
            · rw [h.2] at hfix; cases hfix
          · rcases hready with h | h
            · exact absurd h hrep
            · rw [h.1] at hconv; cases hconv
      simp only [RunLog.cat]
      exact List.mem_append.mpr (Or.inl hatt)
    · rcases processGroup_delta eng w n g0 with
        ⟨newRows, hcomp, _, hprops, _, hrepmono, _, _, _⟩
      have hpend' : mutKey r ∉ (processGroup eng (w, n) g0).1.1.completed := by
        rw [hcomp]
        intro hmem
        rcases Finset.mem_union.mp hmem with h | h
        · exact hpend h
        · rcases List.mem_map.mp (List.mem_toFinset.mp h) with ⟨o, ho, hko⟩
          have heqr : o.mrow = r :=
            huniq g0 (List.mem_cons_self _ _) o.mrow (hprops o ho).1 hko
          have hrg0 : r ∈ g0.2 := heqr ▸ (hprops o ho).1
          have h1 : r.uniprot = g0.1 := hup g0 (List.mem_cons_self _ _) r hrg0
          have h2 : r.uniprot = g.1 := hup g (List.mem_cons_of_mem _ hg') r hr
          have : g.1 ∈ gs.map Prod.fst := List.mem_map.mpr ⟨g, hg', rfl⟩
          rw [← h2, h1] at this
          exact (List.nodup_cons.mp hnd).1 this
      have hready' : g.1 ∈ (processGroup eng (w, n) g0).1.1.repaired ∨
          (eng.convertOk (structFileOf g) = true ∧ eng.repairOk g.1 = true) := by
        rcases hready with h | h
        · exact Or.inl (hrepmono h)
        · exact Or.inr h
      simp only [RunLog.cat]
      refine List.mem_append.mpr (Or.inr ?_)
      exact ih (processGroup eng (w, n) g0).1.1 (processGroup eng (w, n) g0).1.2 g r hg' hr
        hpend' (fun g' h1 r' h2 hk => huniq g' (List.mem_cons_of_mem _ h1) r' h2 hk)
        (List.nodup_cons.mp hnd).2
        (fun g' h1 r' h2 => hup g' (List.mem_cons_of_mem _ h1) r' h2) hready'

/-- The group that `df.groupby('UniProtID')` produces for protein `u`. -/
def dfGroup (df : List MutRow) (u : String) : String × List MutRow :=
  (u, df.filter (fun x => x.uniprot == u))

/-! ## Claim theorems: skip isolation -/

/-- C5: in a from-scratch unlimited session on a chunk with distinct
identity keys, if BuildModel exits non-zero for mutation `m` of a Ready
protein group (conversion and repair succeed for it), then `m`'s key is
not in the final completed set and no result row carries it, yet `m`
itself was invoked, every sibling mutation of the same protein was
invoked, and every mutation of any other protein whose own prep phase
succeeds is invoked as well. -/
theorem skip_isolation (eng : Engine) (df : List MutRow) (m : MutRow)
    (hkeys : (df.map mutKey).Nodup) (hm : m ∈ df)
    (hfail : eng.buildOk m = false)
    (hconv : eng.convertOk (structFileOf (dfGroup df m.uniprot)) = true)
    (hrepok : eng.repairOk m.uniprot = true) :
    mutKey m ∉ (run_foldx_process eng df [] ∅ 0).1.1.completed ∧
    (∀ orow ∈ (run_foldx_process eng df [] ∅ 0).1.1.rows, outKey orow ≠ mutKey m) ∧
    m ∈ (run_foldx_process eng df [] ∅ 0).2.attempts ∧
    (∀ r ∈ df, r.uniprot = m.uniprot →
      r ∈ (run_foldx_process eng df [] ∅ 0).2.attempts) ∧
    (∀ r ∈ df, eng.convertOk (structFileOf (dfGroup df r.uniprot)) = true →
      eng.repairOk r.uniprot = true →
      r ∈ (run_foldx_process eng df [] ∅ 0).2.attempts) := by
  have hinj : ∀ x ∈ df, ∀ y ∈ df, mutKey x = mutKey y → x = y :=
    List.inj_on_of_nodup_map hkeys
  have hgs : ∀ g ∈ groupByProtein df, ∀ r ∈ g.2, r ∈ df :=
    fun g hg r hr => (groupByProtein_rows df g hg r hr).1
  have hinv := runGroups_invariant eng 0 df (groupByProtein df) ⟨∅, [], ∅⟩ 0 hgs
    (by simp) (by simp) (by intro o ho; cases ho)
  have hunfold : run_foldx_process eng df [] ∅ 0 =
      runGroups eng 0 (groupByProtein df) (⟨∅, [], ∅⟩, 0) := rfl
  rw [hunfold]
  have hattempt : ∀ r ∈ df, eng.convertOk (structFileOf (dfGroup df r.uniprot)) = true →
      eng.repairOk r.uniprot = true →
      r ∈ (runGroups eng 0 (groupByProtein df) (⟨∅, [], ∅⟩, 0)).2.attempts := by
    intro r hr hc hfix
    have hg := groupByProtein_complete df r hr
    refine runGroups_attempts eng (groupByProtein df) ⟨∅, [], ∅⟩ 0
      (dfGroup df r.uniprot) r hg.1 hg.2 (by simp) ?_ (groupByProtein_fst_nodup df)
      (fun g' h1 r' h2 => (groupByProtein_rows df g' h1 r' h2).2) (Or.inr ⟨hc, hfix⟩)
    intro g' h1 r' h2 hk
    exact hinj r' (hgs g' h1 r' h2) r hr hk
  have hrows : ∀ orow ∈ (runGroups eng 0 (groupByProtein df) (⟨∅, [], ∅⟩, 0)).1.1.rows,
      outKey orow ≠ mutKey m := by
    intro orow ho hk
    have h1 := hinv.2.2 orow ho
    have h2 : orow.mrow = m := hinj orow.mrow h1.1 m hm hk
    rw [h2] at h1
    rw [h1.2] at hfail
    cases hfail
  refine ⟨?_, hrows, hattempt m hm hconv hrepok, ?_, hattempt⟩
  · intro hmem
    rw [hinv.1] at hmem
    rcases List.mem_map.mp (List.mem_toFinset.mp hmem) with ⟨orow, ho, hko⟩
    exact hrows orow ho hko
  · intro r hr hu
    refine hattempt r hr ?_ ?_
    · rw [hu]; exact hconv
    · rw [hu]; exact hrepok

/-- Third example row: a second protein `P2`. -/
def exRow3 : MutRow := ⟨"P2", "g", "ALA", 3, "VAL"⟩

/-- Concrete engine whose BuildModel fails exactly on `exRow2`;
everything else succeeds. -/
def engFailB : Engine :=
  ⟨fun _ => true, fun _ => true, fun r => !(r == exRow2),
   fun _ => some "h\nx\t2.5\ty\n", fun _ => true⟩

/-- Witness for C5: mutation `exRow2` of `P1` fails while its sibling
`exRow1` and the other protein's `exRow3` are still attempted. -/
theorem skip_isolation_witness :
    mutKey exRow2 ∉
      (run_foldx_process engFailB [exRow1, exRow2, exRow3] [] ∅ 0).1.1.completed ∧
    (∀ orow ∈ (run_foldx_process engFailB [exRow1, exRow2, exRow3] [] ∅ 0).1.1.rows,
      outKey orow ≠ mutKey exRow2) ∧
    exRow2 ∈ (run_foldx_process engFailB [exRow1, exRow2, exRow3] [] ∅ 0).2.attempts ∧
    (∀ r ∈ [exRow1, exRow2, exRow3], r.uniprot = exRow2.uniprot →
      r ∈ (run_foldx_process engFailB [exRow1, exRow2, exRow3] [] ∅ 0).2.attempts) ∧
    (∀ r ∈ [exRow1, exRow2, exRow3],
      engFailB.convertOk (structFileOf (dfGroup [exRow1, exRow2, exRow3] r.uniprot)) = true →
      engFailB.repairOk r.uniprot = true →
      r ∈ (run_foldx_process engFailB [exRow1, exRow2, exRow3] [] ∅ 0).2.attempts) :=
  skip_isolation engFailB [exRow1, exRow2, exRow3] exRow2 (by decide)
    (by decide) (by decide) rfl rfl

/-! ## Claim theorems: missing mutant structure -/

/-- C9: when BuildModel exits zero but the generated mutant structure
`{uniprot}_Repair_1.pdb` is absent, the worker performs no relocation and
only logs a warning, yet still appends a result row whose
`MutantStructureFile` column names the never-created destination file,
still marks the key completed, and records whatever energy the fxout
parse produced (possibly non-null); re-running the same mutation
afterwards is a no-op, so it is never retried. -/
theorem missing_mutant_pdb_still_recorded (eng : Engine) (u : String) (row : MutRow)
    (c : Finset String) (b : List OutRow) (n : Nat)
    (hpend : mutKey row ∉ c) (hbuild : eng.buildOk row = true)
    (hmiss : eng.mutantGenerated row = false) :
    processMutation eng u row (c, b, n) =
      ((insert (mutKey row) c,
        b ++ [⟨row, extractDdg (eng.fxoutAfter row), finalPdbName row⟩], n + 1),
       ⟨[row], [], [], [mutCode row], []⟩) ∧
    processMutation eng u row
        (insert (mutKey row) c,
         b ++ [⟨row, extractDdg (eng.fxoutAfter row), finalPdbName row⟩], n + 1) =
      ((insert (mutKey row) c,
        b ++ [⟨row, extractDdg (eng.fxoutAfter row), finalPdbName row⟩], n + 1),
       RunLog.nil) := by
  constructor
  · rcases processMutation_spec eng u row c b n with ⟨hmem, _⟩ | ⟨_, _, heq⟩ | ⟨_, hb, _⟩
    · exact absurd hmem hpend
    · rw [heq, mvWarn, mvMoves, if_neg (by simp [hmiss]), if_neg (by simp [hmiss])]
    · rw [hbuild] at hb; cases hb
  · simp only [processMutation]
    rw [if_pos (Finset.mem_insert_self _ _)]

/-- Witness for C9: with `exEngine` (build succeeds, fxout parses to
`2.5`, mutant structure absent) the pending mutation `exRow1` is recorded
with the phantom filename `P1_E10D.pdb`, its key completed, a warning
logged and no move performed. -/
theorem missing_mutant_pdb_still_recorded_witness :
    (processMutation exEngine "P1" exRow1 (∅, [], 0)).1.2.1 =
      [⟨exRow1, some (mkRat 5 2), "P1_E10D.pdb"⟩] ∧
    mutKey exRow1 ∈ (processMutation exEngine "P1" exRow1 (∅, [], 0)).1.1 ∧
    (processMutation exEngine "P1" exRow1 (∅, [], 0)).2.warnings = ["EA10D"] ∧
    (processMutation exEngine "P1" exRow1 (∅, [], 0)).2.moves = [] := by
  have h := (missing_mutant_pdb_still_recorded exEngine "P1" exRow1 ∅ [] 0
    (Finset.not_mem_empty _) rfl rfl).1
  rw [h]
  refine ⟨by decide, Finset.mem_insert_self _ _, by decide, rfl⟩
